import Mathlib

/-!
Verification development for the pipeline engine of `backup_server.py`
(Termux Web Backup Suite).  The Python source is shallowly embedded as
executable Lean definitions: path canonicalization (`os.path.abspath` /
`posixpath.normpath` / `posixpath.join`), `prune_redundant_paths`, the
stderr and progress monitors' per-line behaviour, pipeline construction
(`build_backup_pipeline`), and the executors (`run_backup_task`,
`run_extraction_task`) as pure functions over an explicit run environment.
-/

set_option maxHeartbeats 1000000

namespace BackupSrv

/-! ## Character-list path machinery (posixpath semantics) -/

/-- The component `"."` of a path, as a character list. -/
def dotc : List Char := ['.']

/-- The component `".."` of a path, as a character list. -/
def ddot : List Char := ['.', '.']

/-- `s.split('/')` on character lists: split at every slash, keeping empty
components (so `"a//b"` gives `["a", "", "b"]` and `""` gives `[""]`). -/
def splitSlash : List Char → List (List Char)
  | [] => [[]]
  | c :: cs =>
    if c = '/' then [] :: splitSlash cs
    else
      match splitSlash cs with
      | [] => [[c]]
      | g :: gs => (c :: g) :: gs

/-- `'/'.join(comps)` on character lists. -/
def joinSlash : List (List Char) → List Char
  | [] => []
  | [g] => g
  | g :: gs => g ++ '/' :: joinSlash gs

/-- The number of initial slashes `posixpath.normpath` preserves: POSIX keeps
one or two leading slashes, but three or more collapse to one. -/
def initialSlashes (l : List Char) : Nat :=
  if l.take 3 = ['/', '/', '/'] then 1
  else if l.take 2 = ['/', '/'] then 2
  else if l.take 1 = ['/'] then 1
  else 0

/-- One step of `posixpath.normpath`'s component loop: skip `""` and `"."`,
append ordinary components, let `".."` pop the previous component unless the
path is relative and nothing is left to pop (then the `".."` is kept), or the
previous component is itself a kept `".."`. -/
def normCompsStep (k : Nat) (acc : List (List Char)) (comp : List Char) : List (List Char) :=
  if comp = [] ∨ comp = dotc then acc
  else if comp ≠ ddot ∨ (k = 0 ∧ acc = []) ∨ acc.getLast? = some ddot then acc ++ [comp]
  else if acc ≠ [] then acc.dropLast
  else acc

/-- `posixpath.normpath`'s component loop over all components. -/
def normComps (k : Nat) (comps : List (List Char)) : List (List Char) :=
  comps.foldl (normCompsStep k) []

/-- The reassembled path `'/'*initial_slashes + '/'.join(comps)` of
`posixpath.normpath`. -/
def normpathCore (l : List Char) : List Char :=
  List.replicate (initialSlashes l) '/' ++
    joinSlash (normComps (initialSlashes l) (splitSlash l))

/-- `posixpath.normpath` on character lists. -/
def normpathL (l : List Char) : List Char :=
  if l = [] then dotc
  else if normpathCore l = [] then dotc else normpathCore l

/-- `posixpath.join(a, b)` for two components: an absolute `b` discards `a`;
otherwise a slash is inserted unless `a` is empty or already ends in one. -/
def joinPathL (a b : List Char) : List Char :=
  if b.head? = some '/' then b
  else if a = [] ∨ a.getLast? = some '/' then a ++ b
  else a ++ '/' :: b

/-- `os.path.abspath(p)` with the process working directory `cwd` made an
explicit parameter: `normpath(join(cwd, p))` (`posixpath.abspath` joins with
`os.getcwd()`, which is always an absolute path). -/
def abspathL (cwd p : List Char) : List Char := normpathL (joinPathL cwd p)

/-! ## String-level wrappers -/

/-- `s.startswith(pre)` (Python `str.startswith`). -/
def startswithB (s pre : String) : Bool := pre.data.isPrefixOf s.data

/-- `s.endswith(suf)` (Python `str.endswith`). -/
def endswithB (s suf : String) : Bool := suf.data.isSuffixOf s.data

/-- `os.path.abspath` at the `String` level. -/
def abspath (cwd p : String) : String := ⟨abspathL cwd.data p.data⟩

/-- `os.path.join(a, b)` at the `String` level. -/
def joinPathS (a b : String) : String := ⟨joinPathL a.data b.data⟩

/-! ## prune_redundant_paths -/

/-- `p.startswith(parent + os.sep)`: `parent` is a proper path ancestor of
`p` in the textual sense the pruner uses. -/
def isParentPath (parent p : String) : Bool := startswithB p (parent ++ "/")

/-- `any(p.startswith(parent + os.sep) for parent in acc)`. -/
def hasParentIn (acc : List String) (p : String) : Bool :=
  acc.any fun parent => isParentPath parent p

/-- The pruning scan over the sorted path list: an element is kept exactly
when no earlier-sorted element (kept or not, matching `sorted_paths[:i]`) is
its proper ancestor.  The first argument accumulates all elements already
scanned. -/
def pruneScan : List String → List String → List String
  | _, [] => []
  | acc, p :: rest =>
    if hasParentIn acc p then pruneScan (acc ++ [p]) rest
    else p :: pruneScan (acc ++ [p]) rest

/-- Lexicographic comparison of character lists by code point: exactly
Python's `<` on strings. -/
def lexLt : List Char → List Char → Bool
  | [], [] => false
  | [], _ :: _ => true
  | _ :: _, [] => false
  | a :: as, b :: bs => if a < b then true else if b < a then false else lexLt as bs

/-- Python's `<` on strings, as an executable Bool. -/
def strLtB (a b : String) : Bool := lexLt a.data b.data

/-- Insert into a strictly sorted duplicate-free list, keeping it so. -/
def insertSortedDedup (x : String) : List String → List String
  | [] => [x]
  | y :: ys =>
    if strLtB x y then x :: y :: ys
    else if x = y then y :: ys
    else y :: insertSortedDedup x ys

/-- `sorted(list(set(l)))`: the strictly increasing list of the distinct
elements of `l` (Python sorts strings lexicographically by code point, which
is exactly `String`'s order). -/
def sortedDedup (l : List String) : List String := l.foldr insertSortedDedup []

/-- `prune_redundant_paths(paths)` with the working directory explicit:
canonicalize every path with `abspath`, sort the distinct results, and keep
an element only if no earlier-sorted element is its proper ancestor. -/
def prune_redundant_paths (cwd : String) (paths : List String) : List String :=
  if paths = [] then []
  else pruneScan [] (sortedDedup (paths.map (abspath cwd)))

/-! ## Python dicts as insertion-ordered association lists -/

/-- Assignment `d[k] = v` on an insertion-ordered dict: overwrite in place if
the key is present, append otherwise. -/
def dictInsert {α : Type} (l : List (String × α)) (k : String) (v : α) : List (String × α) :=
  if l.any (fun p => p.1 = k) then l.map (fun p => if p.1 = k then (k, v) else p)
  else l ++ [(k, v)]

/-- A dict built from a sequence of key/value pairs (later duplicates win),
as in a Python dict comprehension. -/
def buildDict {α : Type} (l : List (String × α)) : List (String × α) :=
  l.foldl (fun d p => dictInsert d p.1 p.2) []

/-- `d.get(k)`: the value of the last binding of `k`, if any. -/
def dictGetO {α : Type} (l : List (String × α)) (k : String) : Option α :=
  l.foldl (fun acc p => if p.1 = k then some p.2 else acc) none

/-! ## monitor_process_stderr, per line -/

/-- Lowercase a string character by character (`str.lower`; the diagnostic
vocabulary matched here is ASCII). -/
def lowerStr (s : String) : String := ⟨s.data.map Char.toLower⟩

/-- Substring containment on character lists. -/
def containsSubL (sub : List Char) : List Char → Bool
  | [] => sub.isPrefixOf []
  | hay@(_ :: t) => sub.isPrefixOf hay || containsSubL sub t

/-- `sub in s` (Python substring containment). -/
def containsSub (s sub : String) : Bool := containsSubL sub.data s.data

/-- The apostrophe character stripped from tar's quoted file names. -/
def apos : Char := Char.ofNat 39

/-- `s.strip(c)`: drop every leading and trailing occurrence of `c`. -/
def stripEnds (c : Char) (l : List Char) : List Char :=
  ((l.dropWhile (· = c)).reverse.dropWhile (· = c)).reverse

/-- The three alternatives of the suffix of `tar_error_re` after the
non-greedy group: `": Cannot open"`, `": Cannot read"`, `": Cannot stat"`. -/
def cannotTails : List (List Char) :=
  [(": Cannot open").data, (": Cannot read").data, (": Cannot stat").data]

/-- The non-greedy scan of `tar: (.*?): Cannot (?:open|read|stat)` after the
`"tar: "` prefix: the shortest group whose remainder starts with one of the
`": Cannot ..."` tails. -/
def tarErrScan : List Char → List Char → Option (List Char)
  | _, [] => none
  | acc, c :: cs =>
    if cannotTails.any (fun t => t.isPrefixOf (c :: cs)) then some acc.reverse
    else tarErrScan (c :: acc) cs

/-- `tar_error_re.match(line)`: anchored at the start (`re.match`), returning
the captured path group. -/
def tarErrorMatch (line : String) : Option String :=
  if ("tar: ").data.isPrefixOf line.data then
    (tarErrScan [] (line.data.drop 5)).map fun g => ⟨g⟩
  else none

/-- `ignorable_errors` of `monitor_process_stderr`. -/
def ignorableErrors : List String := ["broken pipe", "write error"]

/-- `critical_errors` of `monitor_process_stderr`. -/
def criticalErrors : List String := ["permission denied", "cannot open"]

/-- The observable effects of `monitor_process_stderr` on one stripped,
decoded stderr line. -/
structure StderrEffect where
  fileProcessed : Option String
  appendedFailed : Option String
  suppressed : Bool
  logged : Bool
  abortSet : Bool
deriving DecidableEq, Repr

/-- One iteration of `monitor_process_stderr`'s line loop, as a pure function
of the stripped line.  `hasErrorEvent` models `error_event is not None`,
`hasFailedList` models `failed_files_list is not None`. -/
def monitor_process_stderr_line (streamName : String) (isVerboseTar : Bool)
    (hasErrorEvent : Bool) (policy : String) (hasFailedList : Bool)
    (basePath : String) (lineStr : String) : StderrEffect :=
  if lineStr = "" then ⟨none, none, false, false, false⟩
  else if isVerboseTar && !(("tar: ").data.isPrefixOf lineStr.data) then
    ⟨some lineStr, none, false, false, false⟩
  else
    let appended :=
      if streamName = "tar" && hasFailedList && !(basePath = "") then
        (tarErrorMatch lineStr).map fun g => joinPathS basePath ⟨stripEnds apos g.data⟩
      else none
    if ignorableErrors.any (fun e => containsSub (lowerStr lineStr) e) then
      ⟨none, appended, true, false, false⟩
    else
      let abort := hasErrorEvent && policy = "abort" &&
        criticalErrors.any (fun e => containsSub (lowerStr lineStr) e)
      ⟨none, appended, false, true, abort⟩

/-! ## monitor_pv_progress, per line -/

/-- `\s` (ASCII whitespace as matched by the progress patterns). -/
def isSpaceChar (c : Char) : Bool :=
  c = ' ' || c = '\t' || c = '\n' || c = '\r' || c = Char.ofNat 11 || c = Char.ofNat 12

/-- `\w`: letters, digits and underscore. -/
def isWordChar (c : Char) : Bool := c.isAlphanum || c = '_'

/-- Match `(\d+\.?\d*)[%]` at the start of `l`, returning the group.  The
backtracking of the original pattern collapses to: maximal digit run, then
either `.` + maximal digit run + `%`, or `%` directly. -/
def percentAt (l : List Char) : Option (List Char) :=
  let d1 := l.takeWhile Char.isDigit
  if d1 = [] then none
  else
    match l.drop d1.length with
    | '.' :: r2 =>
      let d2 := r2.takeWhile Char.isDigit
      match r2.drop d2.length with
      | '%' :: _ => some (d1 ++ '.' :: d2)
      | _ => none
    | '%' :: _ => some d1
    | _ => none

/-- The `\s*\]` tail of `speed_re` after the captured group `g`. -/
def speedCloseBracket (g rest : List Char) : Option (List Char) :=
  match rest.drop (rest.takeWhile isSpaceChar).length with
  | ']' :: _ => some g
  | _ => none

/-- Match `\[\s*(\d+\.?\d*\w+i?B/s)\s*\]` at the start of `l`.  Digits and
`i` are themselves word characters, so under backtracking `\d*`, `\w+` and
`i?` together consume an arbitrary non-empty word-character run; `/` is not
a word character, so the literal `B` must be the last character of the
maximal word run that starts at the number (after the dot when the optional
dot is consumed, or swallowing the digits themselves when it is not),
followed by `/s`.  The run must hold at least one `\w+` character besides
the digits `\d+` demands (one, when no dot is consumed) and the literal
`B`. -/
def speedAt (l : List Char) : Option (List Char) :=
  match l with
  | '[' :: r1 =>
    let r2 := r1.drop (r1.takeWhile isSpaceChar).length
    let d1 := r2.takeWhile Char.isDigit
    if d1 = [] then none
    else
      match r2.drop d1.length with
      | '.' :: r3 =>
        let w2 := r3.takeWhile isWordChar
        let r4 := r3.drop w2.length
        if 2 ≤ w2.length && w2.getLast? = some 'B' && (['/', 's'].isPrefixOf r4) then
          speedCloseBracket (d1 ++ '.' :: (w2 ++ ['/', 's'])) (r4.drop 2)
        else none
      | _ =>
        let w2 := r2.takeWhile isWordChar
        let r4 := r2.drop w2.length
        if 3 ≤ w2.length && w2.getLast? = some 'B' && (['/', 's'].isPrefixOf r4) then
          speedCloseBracket (w2 ++ ['/', 's']) (r4.drop 2)
        else none
  | _ => none

/-- Match `ETA\s+([\d:]+)` at the start of `l`. -/
def etaAt (l : List Char) : Option (List Char) :=
  if ("ETA").data.isPrefixOf l then
    let r1 := l.drop 3
    let ws := r1.takeWhile isSpaceChar
    if ws = [] then none
    else
      let g := (r1.drop ws.length).takeWhile fun c => c.isDigit || c = ':'
      if g = [] then none else some g
  else none

/-- `re.search`: the match at the leftmost position where the pattern
matches. -/
def scanFirst (f : List Char → Option (List Char)) : List Char → Option (List Char)
  | [] => none
  | l@(_ :: cs) =>
    match f l with
    | some g => some g
    | none => scanFirst f cs

/-- Decimal digit character. -/
def natDigitChar (n : Nat) : Char := Char.ofNat (48 + n)

/-- Decimal digits of a natural number, with explicit fuel. -/
def natDigitsAux : Nat → Nat → List Char
  | 0, _ => []
  | fuel + 1, n => if n < 10 then [natDigitChar n] else natDigitsAux fuel (n / 10) ++ [natDigitChar (n % 10)]

/-- Decimal rendering of a natural number. -/
def natToStr (n : Nat) : String := ⟨natDigitsAux (n + 1) n⟩

/-- Numeric value of a digit run. -/
def natOfDigits (l : List Char) : Nat := l.foldl (fun a c => a * 10 + (c.toNat - 48)) 0

/-- Round `num / den` to the nearest integer, ties to even (`den > 0`). -/
def rhe (num den : Nat) : Nat :=
  if den < 2 * (num % den) then num / den + 1
  else if 2 * (num % den) < den then num / den
  else if num / den % 2 = 0 then num / den else num / den + 1

/-- Floor of the base-2 logarithm, with explicit fuel. -/
def floorLog2Aux : Nat → Nat → Nat
  | 0, _ => 0
  | fuel + 1, n => if 2 ≤ n then floorLog2Aux fuel (n / 2) + 1 else 0

/-- Floor of the base-2 logarithm (0 at 0 and 1). -/
def floorLog2 (n : Nat) : Nat := floorLog2Aux n n

/-- Whether `2 ^ p ≤ m / 10 ^ k`, for a signed exponent `p`. -/
def twoPowLe (p : Int) (m k : Nat) : Bool :=
  if 0 ≤ p then 2 ^ p.toNat * 10 ^ k ≤ m else 10 ^ k ≤ m * 2 ^ (-p).toNat

/-- `⌊log₂ (m / 10 ^ k)⌋` for `m ≥ 1`: the candidate from the integer logs
is off by at most one, fixed by a direct comparison. -/
def floorLog2Rat (m k : Nat) : Int :=
  if twoPowLe ((floorLog2 m : Int) - (floorLog2 (10 ^ k) : Int)) m k then
    (floorLog2 m : Int) - (floorLog2 (10 ^ k) : Int)
  else (floorLog2 m : Int) - (floorLog2 (10 ^ k) : Int) - 1

/-- `float(s)` for the non-negative decimal `m / 10 ^ k`: the nearest IEEE-754
binary64, ties to even, returned as significand/exponent with value
`n * 2 ^ e`, or `none` on overflow to infinity.  The significand is scaled to
53 bits (`2 ^ 52 ≤ n < 2 ^ 53`) except for subnormals, whose exponent is
clamped at -1074; a round-up to `2 ^ 53` shifts into the next binade, and
exponents above 971 (binade of the largest finite double) overflow. -/
def decToDouble (m k : Nat) : Option (Nat × Int) :=
  if m = 0 then some (0, 0)
  else
    let er := floorLog2Rat m k - 52
    let e := if er < -1074 then (-1074 : Int) else er
    let n := if 0 ≤ e then rhe m (10 ^ k * 2 ^ e.toNat) else rhe (m * 2 ^ (-e).toNat) (10 ^ k)
    if n = 2 ^ 53 then
      if (971 : Int) < e + 1 then none else some (2 ^ 52, e + 1)
    else if (971 : Int) < e then none
    else some (n, e)

/-- `f"{float(s):.1f}"` on a group matched by `(\d+\.?\d*)`: the decimal is
first converted to the nearest binary64 (`float(s)`), and that binary value
is formatted with one fractional digit, correctly rounded ties-to-even, as
CPython does; an overflowing value prints `inf`. -/
def format1f (g : List Char) : String :=
  let ip := g.takeWhile Char.isDigit
  let fp :=
    match g.drop ip.length with
    | '.' :: fp => fp
    | _ => []
  match decToDouble (natOfDigits ip * 10 ^ fp.length + natOfDigits fp) fp.length with
  | none => "inf"
  | some (n, e) =>
    let t := if 0 ≤ e then n * 10 * 2 ^ e.toNat else rhe (n * 10) (2 ^ (-e).toNat)
    natToStr (t / 10) ++ "." ++ natToStr (t % 10)

/-- The progress snapshot published by `monitor_pv_progress`. -/
structure ProgressData where
  percent : String
  speed : String
  eta : String
deriving DecidableEq, Repr

/-- One iteration of `monitor_pv_progress`'s line loop: the snapshot is
rebuilt from the current line only, each absent field taking its placeholder
(`"0.0"`, `"--"`, `"--:--"`). -/
def monitor_pv_progress_line (line : String) : ProgressData :=
  { percent :=
      match scanFirst percentAt line.data with
      | some g => format1f g
      | none => "0.0"
    speed :=
      match scanFirst speedAt line.data with
      | some g => ⟨g⟩
      | none => "--"
    eta :=
      match scanFirst etaAt line.data with
      | some g => ⟨g⟩
      | none => "--:--" }

/-! ## build_backup_pipeline -/

deriving instance DecidableEq for Except

/-- Identity of a spawned pipeline process (distinct from its dict key: in
the degenerate `encrypt` fall-through the appended entry reuses the
compressor's process). -/
inductive StageProc
  | tarS
  | pvS
  | zstdS
  | encS
  | catS
deriving DecidableEq, Repr

/-- An entry of the `processes` list: the name used as the exit-code dict key
together with the process it denotes. -/
structure SpawnedProc where
  name : String
  proc : StageProc
deriving DecidableEq, Repr

/-- The exceptions `build_backup_pipeline` raises (`ValueError` /
`PermissionError`, by cause). -/
inductive BuildError
  | noSources
  | emptyAfterPruning
  | permissionDenied (path : String)
  | agePassphraseMissing
  | gpgRecipientMissing
deriving DecidableEq, Repr

/-- The run configuration fields `build_backup_pipeline` reads.  String
fields use `""` for an absent (falsy) value; `encrypt` and
`showFileProgress` hold the result of the `str(...).lower() == 'true'`
tests. -/
structure BuildConfig where
  sources : List String
  errorHandling : String
  showFileProgress : Bool
  encrypt : Bool
  encryptionMethod : String
  encryptionPassword : String
  gpgRecipient : String
deriving DecidableEq, Repr

/-- What a successful `build_backup_pipeline` hands to the executor, beyond
the stream handle: the `processes` list and the advisory size estimate. -/
structure BuildOutput where
  processes : List SpawnedProc
  totalSize : Nat
  duInvoked : Bool
deriving DecidableEq, Repr

/-- The three always-spawned stages, in spawn order: archiver, meter,
compressor. -/
def baseProcs : List SpawnedProc :=
  [⟨"tar", .tarS⟩, ⟨"pv", .pvS⟩, ⟨"zstd", .zstdS⟩]

/-- The validation prefix of `build_backup_pipeline`: empty source list,
empty pruned list, then the first unreadable pruned path. -/
def validationError (cwd : String) (readable : String → Bool) (cfg : BuildConfig) :
    Option BuildError :=
  if cfg.sources = [] then some .noSources
  else if prune_redundant_paths cwd cfg.sources = [] then some .emptyAfterPruning
  else
    match (prune_redundant_paths cwd cfg.sources).find? (fun p => ! readable p) with
    | some p => some (.permissionDenied p)
    | none => none

/-- The advisory size estimation.  `rootNodeCache` is `ROOT_NODE_CACHE or []`
flattened to id/size pairs; `duResult` summarizes the `du -sb` subprocess:
`some t` when it ran, parsed and summed to `t`, `none` on any failure
(timeout, non-zero exit, empty or unparsable output), in which case
`total_size` keeps its initial `0` (unknown).  Returns (total, du ran). -/
def sizeEstimate (rootNodeCache : List (String × Nat)) (duResult : Option Nat)
    (pruned : List String) : Nat × Bool :=
  if pruned.all (fun p => (dictGetO (buildDict rootNodeCache) p).isSome) then
    (((pruned.map fun p => (dictGetO (buildDict rootNodeCache) p).getD 0).sum), false)
  else (duResult.getD 0, true)

/-- The encryption tail of the pipeline: spawned after the three base stages.
Raising here leaves those three running.  The fall-through for an
unrecognized method appends `(method, zstd_proc)` without spawning. -/
def encStages (cfg : BuildConfig) : Except BuildError (List SpawnedProc) :=
  if cfg.encrypt then
    if cfg.encryptionMethod = "age" then
      if cfg.encryptionPassword = "" then .error .agePassphraseMissing
      else .ok [⟨"age", .encS⟩]
    else if cfg.encryptionMethod = "gpg" then
      if cfg.gpgRecipient = "" then .error .gpgRecipientMissing
      else .ok [⟨"gpg", .encS⟩]
    else .ok [⟨cfg.encryptionMethod, .zstdS⟩]
  else .ok []

/-- `build_backup_pipeline(config)`: validation, size estimation, then the
stage spawns.  An error carries the processes already spawned when the
exception was raised (the caller never sees them: its `processes` variable
is still empty). -/
def build_backup_pipeline (cwd : String) (readable : String → Bool)
    (rootNodeCache : List (String × Nat)) (duResult : Option Nat)
    (cfg : BuildConfig) : Except (BuildError × List SpawnedProc) BuildOutput :=
  match validationError cwd readable cfg with
  | some e => .error (e, [])
  | none =>
    match encStages cfg with
    | .error e => .error (e, baseProcs)
    | .ok tail =>
      .ok ⟨baseProcs ++ tail,
        (sizeEstimate rootNodeCache duResult (prune_redundant_paths cwd cfg.sources)).1,
        (sizeEstimate rootNodeCache duResult (prune_redundant_paths cwd cfg.sources)).2⟩

/-! ## run_backup_task -/

/-- The terminal status of a run (`backup_complete` / `extraction_complete`
notification). -/
inductive Outcome
  | success
  | error
deriving DecidableEq, Repr

/-- The final state of one spawned process when `run_backup_task` returns:
whether `terminate()` was called on it, whether it was `wait()`ed on, and
whether it is still running unreaped. -/
structure ProcFinal where
  name : String
  proc : StageProc
  terminateRequested : Bool
  waited : Bool
  stillRunning : Bool
deriving DecidableEq, Repr

/-- The environment a backup run unfolds in: everything the surrounding
world decides.  `destName` is `destination_stream.name` when the destination
has one (`none` models the browser stream); `destExists` is what
`os.path.exists(output_path)` returns at cleanup time; `reads` are the
successive `pipe.read(8192)` results (`true` = non-empty chunk);
`abortAt = some a` means `error_event.is_set()` is `true` from the `a`-th
check on; `exitCode` is each process's `wait()` status;
`aliveAtCleanup` is `poll() is None` for processes not yet waited on when
the `finally` block runs. -/
structure RunEnv where
  cwd : String
  readable : String → Bool
  rootNodeCache : List (String × Nat)
  duResult : Option Nat
  cfg : BuildConfig
  destName : Option String
  destExists : Bool
  reads : List Bool
  abortAt : Option Nat
  exitCode : StageProc → Int
  aliveAtCleanup : StageProc → Bool

/-- The observable outcome of `run_backup_task`. -/
structure RunResult where
  reported : Outcome
  tarWarned : Bool
  destRemoved : Bool
  destExistsAfter : Bool
  copied : Nat
  procs : List ProcFinal
deriving DecidableEq, Repr

/-- Whether the abort event is set at check index `i`. -/
def isSetAt (ab : Option Nat) (i : Nat) : Bool :=
  match ab with
  | none => false
  | some a => a ≤ i

/-- The executor's copy loop: at iteration `i` it checks the abort event,
reads a chunk, stops on an empty read, otherwise writes the chunk.  Returns
(chunks written, whether the post-loop abort check raises). -/
def copyLoop (ab : Option Nat) : Nat → List Bool → Nat × Bool
  | i, [] => (0, isSetAt ab (i + 1))
  | i, r :: rest =>
    if isSetAt ab i then (0, true)
    else if r then
      let t := copyLoop ab (i + 1) rest
      (t.1 + 1, t.2)
    else (0, isSetAt ab (i + 1))

/-- The `finally` block of `run_backup_task` together with the terminal
notification: remove the destination file when the pipeline did not succeed,
it has a real name and it exists. -/
def cleanupAndReport (env : RunEnv) (succ : Bool) (tarWarned : Bool) (copied : Nat)
    (procs : List ProcFinal) : RunResult :=
  let outputPath := env.destName.getD "browser_stream"
  let destRemoved := !succ && !(outputPath = "browser_stream" : Bool) && env.destExists
  { reported := if succ then .success else .error
    tarWarned := tarWarned
    destRemoved := destRemoved
    destExistsAfter := env.destExists && !destRemoved
    copied := copied
    procs := procs }

/-- The exit-code dict `{name: proc.wait() for name, proc in processes}`. -/
def backupExitCodes (env : RunEnv) (out : BuildOutput) : List (String × Int) :=
  buildDict (out.processes.map fun s => (s.name, env.exitCode s.proc))

/-- Lines 249-252 of the source: `tar_code = exit_codes.get('tar', 0)`,
`other_codes_ok = all(code == 0 … if name != 'tar')`, and the test
`(tar_code in [0, 1]) and other_codes_ok`. -/
def backup_exit_ok (ec : List (String × Int)) : Bool :=
  (((dictGetO ec "tar").getD 0 = 0 : Bool) || ((dictGetO ec "tar").getD 0 = 1 : Bool)) &&
    ec.all fun q => (q.1 = "tar" : Bool) || (q.2 = 0 : Bool)

/-- `run_backup_task(config, destination_stream)`.  When
`build_backup_pipeline` raises, the local `processes` list is still empty,
so the cleanup loop terminates nothing and the processes spawned before the
raise stay unreaped.  Otherwise the copy loop runs; an abort raises before
the exit codes are collected; otherwise every process is waited on and the
exit codes are reconciled. -/
def run_backup_task (env : RunEnv) : RunResult :=
  match build_backup_pipeline env.cwd env.readable env.rootNodeCache env.duResult env.cfg with
  | .error (_, spawned) =>
    cleanupAndReport env false false 0
      (spawned.map fun s => ⟨s.name, s.proc, false, false, env.aliveAtCleanup s.proc⟩)
  | .ok out =>
    if (copyLoop env.abortAt 0 env.reads).2 then
      cleanupAndReport env false false (copyLoop env.abortAt 0 env.reads).1
        (out.processes.map fun s => ⟨s.name, s.proc, env.aliveAtCleanup s.proc, true, false⟩)
    else
      cleanupAndReport env (backup_exit_ok (backupExitCodes env out))
        (backup_exit_ok (backupExitCodes env out) &&
          ((dictGetO (backupExitCodes env out) "tar").getD 0 = 1 : Bool))
        (copyLoop env.abortAt 0 env.reads).1
        (out.processes.map fun s => ⟨s.name, s.proc, false, true, false⟩)

/-! ## run_extraction_task -/

/-- `build_extraction_pipeline`'s `processes` list: reader, optional
decryptor chosen by filename suffix, decompressor, extractor. -/
def extractionStages (filename : String) : List SpawnedProc :=
  [⟨"cat", .catS⟩] ++
    (if endswithB filename ".age" then [⟨"age", .encS⟩]
     else if endswithB filename ".gpg" then [⟨"gpg", .encS⟩]
     else []) ++
    [⟨"zstd", .zstdS⟩, ⟨"tar", .tarS⟩]

/-- `run_extraction_task`'s exit-code aggregation: success iff every value of
the exit-code dict is exactly 0. -/
def run_extraction_task (filename : String) (exitCode : StageProc → Int) : Outcome :=
  let ec := buildDict ((extractionStages filename).map fun s => (s.name, exitCode s.proc))
  if ec.all (fun q => (q.2 = 0 : Bool)) then .success else .error

/-! ## Concrete run environments (test fixtures) -/

/-- A plain unencrypted configuration over one readable source. -/
def cfgPlain : BuildConfig := ⟨["/a"], "ignore", false, false, "", "", ""⟩

/-- Encryption requested with method `age` but no passphrase. -/
def cfgAge : BuildConfig := ⟨["/a"], "ignore", false, true, "age", "", ""⟩

/-- A run whose stages all exit 0 except tar, which exits 1. -/
def envTarWarn : RunEnv :=
  { cwd := "/", readable := fun _ => true, rootNodeCache := [("/a", 7)],
    duResult := none, cfg := cfgPlain,
    destName := some "/root/backups/x.tar.zst", destExists := true,
    reads := [true, false], abortAt := none,
    exitCode := fun p => match p with | .tarS => 1 | _ => 0,
    aliveAtCleanup := fun _ => false }

/-- A run whose compressor exits 1 (a failing run with a file destination). -/
def envZstdFail : RunEnv :=
  { cwd := "/", readable := fun _ => true, rootNodeCache := [("/a", 7)],
    duResult := none, cfg := cfgPlain,
    destName := some "/root/backups/x.tar.zst", destExists := true,
    reads := [true, false], abortAt := none,
    exitCode := fun p => match p with | .zstdS => 1 | _ => 0,
    aliveAtCleanup := fun _ => false }

/-- A run in which `build_backup_pipeline` raises after spawning tar, pv and
zstd (age encryption without a passphrase). -/
def envLeak : RunEnv :=
  { cwd := "/", readable := fun _ => true, rootNodeCache := [],
    duResult := none, cfg := cfgAge,
    destName := some "/root/backups/x.tar.zst", destExists := true,
    reads := [true, false], abortAt := none,
    exitCode := fun _ => 0, aliveAtCleanup := fun _ => true }

/-- A run configured with the unrecognized encryption method `"tar"`: the
method-dispatch fall-through records `("tar", zstd_proc)` as a fourth stage,
so the exit-code dict key `"tar"` is overwritten with the compressor's
status.  The archiver itself exits 2; every other process exits 0. -/
def envTarShadow : RunEnv :=
  { cwd := "/", readable := fun _ => true, rootNodeCache := [("/a", 7)],
    duResult := none, cfg := ⟨["/a"], "ignore", false, true, "tar", "", ""⟩,
    destName := some "/root/backups/x.tar.zst", destExists := true,
    reads := [true, false], abortAt := none,
    exitCode := fun p => match p with | .tarS => 2 | _ => 0,
    aliveAtCleanup := fun _ => false }

/-! ## Predicates used by the verification -/

/-- The strict order `sortedDedup` sorts by, as a proposition. -/
def sLt (a b : String) : Prop := strLtB a b = true

/-- A component of a normalized path: non-empty, not `"."`, slash-free. -/
def GoodComp (g : List Char) : Prop := g ≠ [] ∧ g ≠ dotc ∧ '/' ∉ g

/-- The `".."` structure `normComps` maintains: the kept `".."` components
form a leading run, and there are none at all for an absolute path. -/
def DDshape (k : Nat) (acc : List (List Char)) : Prop :=
  ∃ n rest, acc = List.replicate n ddot ++ rest ∧ ddot ∉ rest ∧ (k ≠ 0 → n = 0)

end BackupSrv

namespace BackupSrv

/-! ## Order properties of the lexicographic comparison -/

theorem lexLt_irrefl (l : List Char) : lexLt l l = false := by
  induction l with
  | nil => rfl
  | cons a as ih =>
    unfold lexLt
    rw [if_neg (lt_irrefl a), if_neg (lt_irrefl a), ih]

theorem lexLt_asymm {a b : List Char} (h : lexLt a b = true) : lexLt b a = false := by
  induction a generalizing b with
  | nil =>
    cases b with
    | nil => simp [lexLt] at h
    | cons y ys => rfl
  | cons x xs ih =>
    cases b with
    | nil => simp [lexLt] at h
    | cons y ys =>
      unfold lexLt at h ⊢
      by_cases h1 : x < y
      · rw [if_neg (lt_asymm h1), if_pos h1]
      · rw [if_neg h1] at h
        by_cases h2 : y < x
        · rw [if_pos h2] at h
          exact absurd h (by simp)
        · rw [if_neg h2] at h
          rw [if_neg h2, if_neg h1]
          exact ih h

theorem lexLt_trans {a b c : List Char} (hab : lexLt a b = true)
    (hbc : lexLt b c = true) : lexLt a c = true := by
  induction a generalizing b c with
  | nil =>
    cases c with
    | nil =>
      cases b with
      | nil => simp [lexLt] at hab
      | cons y ys => simp [lexLt] at hbc
    | cons z zs => rfl
  | cons x xs ih =>
    cases b with
    | nil => simp [lexLt] at hab
    | cons y ys =>
      cases c with
      | nil => simp [lexLt] at hbc
      | cons z zs =>
        unfold lexLt at hab hbc ⊢
        by_cases h1 : x < y
        · by_cases h2 : y < z
          · rw [if_pos (lt_trans h1 h2)]
          · rw [if_neg h2] at hbc
            by_cases h3 : z < y
            · rw [if_pos h3] at hbc
              exact absurd hbc (by simp)
            · have hyz : y = z := le_antisymm (le_of_not_lt h3) (le_of_not_lt h2)
              rw [if_pos (hyz ▸ h1)]
        · rw [if_neg h1] at hab
          by_cases h1b : y < x
          · rw [if_pos h1b] at hab
            exact absurd hab (by simp)
          · rw [if_neg h1b] at hab
            have hxy : x = y := le_antisymm (le_of_not_lt h1b) (le_of_not_lt h1)
            subst hxy
            by_cases h2 : x < z
            · rw [if_pos h2]
            · rw [if_neg h2] at hbc ⊢
              by_cases h3 : z < x
              · rw [if_pos h3] at hbc
                exact absurd hbc (by simp)
              · rw [if_neg h3] at hbc ⊢
                exact ih hab hbc

theorem lexLt_or_of_ne {a b : List Char} (h : a ≠ b) :
    lexLt a b = true ∨ lexLt b a = true := by
  induction a generalizing b with
  | nil =>
    cases b with
    | nil => exact absurd rfl h
    | cons y ys => exact Or.inl rfl
  | cons x xs ih =>
    cases b with
    | nil => exact Or.inr rfl
    | cons y ys =>
      unfold lexLt
      rcases lt_trichotomy x y with h1 | h1 | h1
      · exact Or.inl (by rw [if_pos h1])
      · subst h1
        have hne : xs ≠ ys := fun he => h (by rw [he])
        rcases ih hne with h2 | h2
        · exact Or.inl (by rw [if_neg (lt_irrefl x), if_neg (lt_irrefl x), h2])
        · exact Or.inr (by rw [if_neg (lt_irrefl x), if_neg (lt_irrefl x), h2])
      · exact Or.inr (by rw [if_pos h1])

theorem lexLt_append_cons (l : List Char) (c : Char) (t : List Char) :
    lexLt l (l ++ c :: t) = true := by
  induction l with
  | nil => rfl
  | cons a as ih =>
    show lexLt (a :: as) (a :: (as ++ c :: t)) = true
    unfold lexLt
    rw [if_neg (lt_irrefl a), if_neg (lt_irrefl a)]
    exact ih

theorem strData_inj {a b : String} (h : a.data = b.data) : a = b := by
  cases a
  cases b
  exact congrArg String.mk h

theorem sLt_irrefl (a : String) : ¬ sLt a a := by
  intro h
  have h2 : lexLt a.data a.data = true := h
  rw [lexLt_irrefl] at h2
  exact absurd h2 (by simp)

theorem sLt_asymm {a b : String} (h : sLt a b) : ¬ sLt b a := by
  intro h2
  have h3 : lexLt b.data a.data = false := lexLt_asymm h
  have h4 : lexLt b.data a.data = true := h2
  rw [h3] at h4
  exact absurd h4 (by simp)

theorem sLt_trans {a b c : String} (hab : sLt a b) (hbc : sLt b c) : sLt a c :=
  lexLt_trans hab hbc

theorem sLt_or_of_ne {a b : String} (h : a ≠ b) : sLt a b ∨ sLt b a :=
  lexLt_or_of_ne fun he => h (strData_inj he)

/-! ## Parent-path lemmas -/

theorem isParentPath_exists {q p : String} (h : isParentPath q p = true) :
    ∃ t, p.data = q.data ++ '/' :: t := by
  unfold isParentPath startswithB at h
  have hpre : (q ++ "/").data <+: p.data := by
    exact (List.isPrefixOf_iff_prefix).mp h
  have hdata : (q ++ "/").data = q.data ++ ['/'] := by
    cases q
    rfl
  rw [hdata] at hpre
  rcases hpre with ⟨t, ht⟩
  exact ⟨t, by rw [← ht, List.append_assoc]; rfl⟩

theorem sLt_of_isParentPath {q p : String} (h : isParentPath q p = true) : sLt q p := by
  rcases isParentPath_exists h with ⟨t, ht⟩
  show lexLt q.data p.data = true
  rw [ht]
  exact lexLt_append_cons _ _ _

theorem isParentPath_irrefl (p : String) : isParentPath p p = false := by
  by_contra hne
  have h : isParentPath p p = true := by
    cases hb : isParentPath p p
    · exact absurd hb hne
    · rfl
  exact sLt_irrefl p (sLt_of_isParentPath h)

theorem ne_of_isParentPath {q p : String} (h : isParentPath q p = true) : q ≠ p := by
  intro he
  subst he
  rw [isParentPath_irrefl q] at h
  exact absurd h (by simp)

theorem hasParentIn_append (acc : List String) (p x : String) :
    hasParentIn (acc ++ [p]) x = (hasParentIn acc x || isParentPath p x) := by
  simp [hasParentIn, List.any_append]

theorem hasParentIn_nil (x : String) : hasParentIn [] x = false := rfl

theorem hasParentIn_eq_false_iff (acc : List String) (x : String) :
    hasParentIn acc x = false ↔ ∀ q ∈ acc, isParentPath q x = false := by
  induction acc with
  | nil => simp [hasParentIn]
  | cons a l ih =>
    have hc : hasParentIn (a :: l) x = (isParentPath a x || hasParentIn l x) := by
      simp [hasParentIn, List.any_cons]
    rw [hc, Bool.or_eq_false_iff]
    constructor
    · rintro ⟨h1, h2⟩ q hq
      rcases List.mem_cons.mp hq with rfl | hq
      · exact h1
      · exact (ih.mp h2) q hq
    · intro h
      exact ⟨h a (List.mem_cons_self a l),
        ih.mpr fun q hq => h q (List.mem_cons_of_mem a hq)⟩

/-! ## sortedDedup lemmas -/

theorem mem_insertSortedDedup {x y : String} {l : List String} :
    x ∈ insertSortedDedup y l ↔ x = y ∨ x ∈ l := by
  induction l with
  | nil => simp [insertSortedDedup]
  | cons z zs ih =>
    unfold insertSortedDedup
    split_ifs with h1 h2
    · simp [List.mem_cons]
    · subst h2
      simp only [List.mem_cons]
      tauto
    · simp only [List.mem_cons, ih]
      tauto

theorem pairwise_insertSortedDedup {x : String} {l : List String}
    (h : l.Pairwise sLt) : (insertSortedDedup x l).Pairwise sLt := by
  induction l with
  | nil => simp [insertSortedDedup, sLt]
  | cons y ys ih =>
    rcases List.pairwise_cons.mp h with ⟨hy, hys⟩
    unfold insertSortedDedup
    split_ifs with h1 h2
    · refine List.pairwise_cons.mpr ⟨?_, h⟩
      intro z hz
      rcases List.mem_cons.mp hz with hz | hz
      · subst hz
        exact h1
      · exact sLt_trans h1 (hy z hz)
    · exact h
    · refine List.pairwise_cons.mpr ⟨?_, ih hys⟩
      intro z hz
      rcases mem_insertSortedDedup.mp hz with hz | hz
      · subst hz
        rcases sLt_or_of_ne (fun he => h2 he) with hlt | hlt
        · exact absurd hlt h1
        · exact hlt
      · exact hy z hz

theorem mem_sortedDedup {x : String} {l : List String} :
    x ∈ sortedDedup l ↔ x ∈ l := by
  induction l with
  | nil => simp [sortedDedup]
  | cons a l ih =>
    show x ∈ insertSortedDedup a (sortedDedup l) ↔ _
    rw [mem_insertSortedDedup]
    simp [List.mem_cons, ih]

theorem pairwise_sortedDedup (l : List String) : (sortedDedup l).Pairwise sLt := by
  induction l with
  | nil => simp [sortedDedup]
  | cons a l ih => exact pairwise_insertSortedDedup ih

theorem sortedDedup_eq_self {l : List String} (h : l.Pairwise sLt) :
    sortedDedup l = l := by
  induction l with
  | nil => rfl
  | cons a l ih =>
    rcases List.pairwise_cons.mp h with ⟨ha, hl⟩
    show insertSortedDedup a (sortedDedup l) = a :: l
    rw [ih hl]
    cases l with
    | nil => rfl
    | cons b bs =>
      unfold insertSortedDedup
      rw [if_pos (show strLtB a b = true from ha b (List.mem_cons_self b bs))]

/-! ## pruneScan lemmas -/

theorem pruneScan_sublist (l : List String) :
    ∀ acc, List.Sublist (pruneScan acc l) l := by
  induction l with
  | nil => intro acc; simp [pruneScan]
  | cons p rest ih =>
    intro acc
    unfold pruneScan
    split_ifs with h
    · exact (ih (acc ++ [p])).trans (List.sublist_cons_self p rest)
    · exact (ih (acc ++ [p])).cons₂ p

theorem pruneScan_inv (l : List String) :
    ∀ acc, (∀ x ∈ pruneScan acc l, hasParentIn acc x = false) ∧
      (pruneScan acc l).Pairwise (fun b a => isParentPath b a = false) := by
  induction l with
  | nil => intro acc; simp [pruneScan]
  | cons p rest ih =>
    intro acc
    unfold pruneScan
    split_ifs with h
    · refine ⟨?_, (ih (acc ++ [p])).2⟩
      intro x hx
      have h2 := (ih (acc ++ [p])).1 x hx
      rw [hasParentIn_append] at h2
      exact (Bool.or_eq_false_iff.mp h2).1
    · constructor
      · intro x hx
        rcases List.mem_cons.mp hx with hx | hx
        · subst hx
          cases hb : hasParentIn acc x
          · rfl
          · exact absurd hb h
        · have h2 := (ih (acc ++ [p])).1 x hx
          rw [hasParentIn_append] at h2
          exact (Bool.or_eq_false_iff.mp h2).1
      · refine List.pairwise_cons.mpr ⟨?_, (ih (acc ++ [p])).2⟩
        intro x hx
        have h2 := (ih (acc ++ [p])).1 x hx
        rw [hasParentIn_append] at h2
        exact (Bool.or_eq_false_iff.mp h2).2

theorem pruneScan_keep (l : List String) :
    ∀ acc (x : String), x ∈ l → (∀ q ∈ acc, isParentPath q x = false) →
      (∀ q ∈ l, isParentPath q x = false) → x ∈ pruneScan acc l := by
  induction l with
  | nil => intro acc x hx _ _; exact absurd hx (List.not_mem_nil x)
  | cons p rest ih =>
    intro acc x hx hacc hl
    unfold pruneScan
    have hacc2 : ∀ q ∈ acc ++ [p], isParentPath q x = false := by
      intro q hq
      rcases List.mem_append.mp hq with hq | hq
      · exact hacc q hq
      · rw [List.mem_singleton.mp hq]
        exact hl p (List.mem_cons_self p rest)
    have hrest : ∀ q ∈ rest, isParentPath q x = false := fun q hq =>
      hl q (List.mem_cons_of_mem p hq)
    rcases List.mem_cons.mp hx with hx | hx
    · have hnp : hasParentIn acc p = false :=
        (hasParentIn_eq_false_iff acc p).mpr (hx ▸ hacc)
      rw [if_neg (show ¬ hasParentIn acc p = true by simp [hnp])]
      rw [hx]
      exact List.mem_cons_self p _
    · split_ifs with h
      · exact ih (acc ++ [p]) x hx hacc2 hrest
      · exact List.mem_cons_of_mem p (ih (acc ++ [p]) x hx hacc2 hrest)

theorem pruneScan_drop (l : List String) :
    ∀ acc, l.Pairwise sLt → ∀ x ∈ pruneScan acc l, ∀ q ∈ l, isParentPath q x = false := by
  induction l with
  | nil => intro acc _ x hx; simp [pruneScan] at hx
  | cons p rest ih =>
    intro acc hpw x hx q hq
    rcases List.pairwise_cons.mp hpw with ⟨hp, hrest⟩
    unfold pruneScan at hx
    split_ifs at hx with h
    · rcases List.mem_cons.mp hq with hq | hq
      · have h2 := (pruneScan_inv rest (acc ++ [p])).1 x hx
        rw [hasParentIn_append] at h2
        rw [hq]
        exact (Bool.or_eq_false_iff.mp h2).2
      · exact ih (acc ++ [p]) hrest x hx q hq
    · rcases List.mem_cons.mp hx with hx | hx
      · rcases List.mem_cons.mp hq with hq | hq
        · rw [hq, hx]
          exact isParentPath_irrefl p
        · by_contra hne
          have hqt : isParentPath q x = true := by
            cases hb : isParentPath q x
            · exact absurd hb hne
            · rfl
          have h3 : sLt q x := sLt_of_isParentPath hqt
          rw [hx] at h3
          exact sLt_asymm (hp q hq) h3
      · rcases List.mem_cons.mp hq with hq | hq
        · have h2 := (pruneScan_inv rest (acc ++ [p])).1 x hx
          rw [hasParentIn_append] at h2
          rw [hq]
          exact (Bool.or_eq_false_iff.mp h2).2
        · exact ih (acc ++ [p]) hrest x hx q hq

theorem pruneScan_id (l : List String) :
    ∀ acc, l.Pairwise (fun b a => isParentPath b a = false) →
      (∀ x ∈ l, hasParentIn acc x = false) → pruneScan acc l = l := by
  induction l with
  | nil => intro acc _ _; rfl
  | cons p rest ih =>
    intro acc hpw hacc
    rcases List.pairwise_cons.mp hpw with ⟨hp, hrest⟩
    unfold pruneScan
    rw [if_neg ?_]
    · rw [ih (acc ++ [p]) hrest ?_]
      intro x hx
      rw [hasParentIn_append, hacc x (List.mem_cons_of_mem p hx), hp x hx]
      rfl
    · rw [hacc p (List.mem_cons_self p rest)]
      simp

theorem pruneScan_cons_ne_nil (p : String) (rest : List String) :
    pruneScan [] (p :: rest) ≠ [] := by
  unfold pruneScan
  rw [if_neg ?_]
  · simp
  · rw [hasParentIn_nil]
    simp

/-! ## splitSlash and joinSlash lemmas -/

theorem splitSlash_ne_nil (l : List Char) : splitSlash l ≠ [] := by
  cases l with
  | nil => simp [splitSlash]
  | cons c cs =>
    unfold splitSlash
    split_ifs
    · simp
    · split <;> simp

theorem mem_splitSlash_no_slash (l : List Char) : ∀ g ∈ splitSlash l, '/' ∉ g := by
  induction l with
  | nil =>
    intro g hg
    simp [splitSlash] at hg
    simp [hg]
  | cons c cs ih =>
    intro g hg
    by_cases hc : c = '/'
    · rw [hc] at hg
      simp only [splitSlash, if_pos rfl] at hg
      rcases List.mem_cons.mp hg with hg | hg
      · simp [hg]
      · exact ih g hg
    · rcases h2 : splitSlash cs with _ | ⟨g0, gs⟩
      · exact absurd h2 (splitSlash_ne_nil cs)
      · rw [show splitSlash (c :: cs) = (c :: g0) :: gs by
          unfold splitSlash
          rw [if_neg hc, h2]] at hg
        rcases List.mem_cons.mp hg with hg | hg
        · rw [hg]
          intro hmem
          rcases List.mem_cons.mp hmem with he | he
          · exact hc he.symm
          · exact ih g0 (h2 ▸ List.mem_cons_self g0 gs) he
        · exact ih g (h2 ▸ List.mem_cons_of_mem g0 hg)

theorem splitSlash_no_slash_id {l : List Char} (h : '/' ∉ l) : splitSlash l = [l] := by
  induction l with
  | nil => rfl
  | cons c cs ih =>
    have hc : ¬ c = '/' := fun he => h (he ▸ List.mem_cons_self c cs)
    have hcs : '/' ∉ cs := fun hm => h (List.mem_cons_of_mem c hm)
    unfold splitSlash
    rw [if_neg hc, ih hcs]

theorem splitSlash_append_slash {g : List Char} (h : '/' ∉ g) (m : List Char) :
    splitSlash (g ++ '/' :: m) = g :: splitSlash m := by
  induction g with
  | nil =>
    show splitSlash ('/' :: m) = [] :: splitSlash m
    simp [splitSlash]
  | cons c g2 ih =>
    have hc : ¬ c = '/' := fun he => h (he ▸ List.mem_cons_self c g2)
    have hg2 : '/' ∉ g2 := fun hm => h (List.mem_cons_of_mem c hm)
    show splitSlash (c :: (g2 ++ '/' :: m)) = (c :: g2) :: splitSlash m
    simp only [splitSlash]
    rw [if_neg hc, ih hg2]

theorem splitSlash_joinSlash {gs : List (List Char)} (hne : gs ≠ [])
    (h : ∀ g ∈ gs, '/' ∉ g) : splitSlash (joinSlash gs) = gs := by
  induction gs with
  | nil => exact absurd rfl hne
  | cons g t ih =>
    cases t with
    | nil =>
      show splitSlash (joinSlash [g]) = [g]
      rw [show joinSlash [g] = g from rfl]
      exact splitSlash_no_slash_id (h g (List.mem_cons_self g []))
    | cons g2 t2 =>
      rw [show joinSlash (g :: g2 :: t2) = g ++ '/' :: joinSlash (g2 :: t2) from rfl]
      rw [splitSlash_append_slash (h g (List.mem_cons_self g _))]
      rw [ih (by simp) fun x hx => h x (List.mem_cons_of_mem g hx)]

theorem splitSlash_replicate (k : Nat) (m : List Char) :
    splitSlash (List.replicate k '/' ++ m) =
      List.replicate k ([] : List Char) ++ splitSlash m := by
  induction k with
  | zero => simp
  | succ n ih =>
    rw [List.replicate_succ, List.cons_append,
      show splitSlash ('/' :: (List.replicate n '/' ++ m)) =
        [] :: splitSlash (List.replicate n '/' ++ m) by
          simp [splitSlash],
      ih, List.replicate_succ, List.cons_append]

theorem joinSlash_cons (g : List Char) (t : List (List Char)) :
    ∃ x, joinSlash (g :: t) = g ++ x := by
  cases t with
  | nil => exact ⟨[], by simp [joinSlash]⟩
  | cons g2 t2 => exact ⟨'/' :: joinSlash (g2 :: t2), rfl⟩

/-! ## initialSlashes lemmas -/

theorem initialSlashes_cases (l : List Char) :
    initialSlashes l = 0 ∨ initialSlashes l = 1 ∨ initialSlashes l = 2 := by
  unfold initialSlashes
  split_ifs <;> simp

theorem initialSlashes_shape {k : Nat} (hk : k ≤ 2) {ch : Char} (hch : ch ≠ '/')
    (m : List Char) : initialSlashes (List.replicate k '/' ++ ch :: m) = k := by
  match k, hk with
  | 0, _ =>
    show initialSlashes (ch :: m) = 0
    unfold initialSlashes
    split_ifs with h1 h2 h3
    · simp [List.take_succ_cons, hch] at h1
    · simp [List.take_succ_cons, hch] at h2
    · simp [List.take_succ_cons, hch] at h3
    · rfl
  | 1, _ =>
    show initialSlashes ('/' :: ch :: m) = 1
    unfold initialSlashes
    split_ifs with h1 h2 h3
    · rfl
    · simp [List.take_succ_cons, hch] at h2
    · rfl
    · exact absurd (by simp) h3
  | 2, _ =>
    show initialSlashes ('/' :: '/' :: ch :: m) = 2
    unfold initialSlashes
    split_ifs with h1 h2 h3
    · simp [List.take_succ_cons, hch] at h1
    · rfl
    · exact absurd (by simp) h2
    · exact absurd (by simp) h2

theorem initialSlashes_pos {t : List Char} : 1 ≤ initialSlashes ('/' :: t) := by
  unfold initialSlashes
  split_ifs with h1 h2 h3
  · omega
  · omega
  · omega
  · exact absurd (by simp) h3

/-! ## normComps invariants -/

theorem foldl_normCompsStep_mem (k : Nat) (Q : List Char → Prop) (comps : List (List Char)) :
    ∀ acc, (∀ g ∈ acc, Q g) → (∀ c ∈ comps, ¬(c = [] ∨ c = dotc) → Q c) →
      ∀ g ∈ comps.foldl (normCompsStep k) acc, Q g := by
  induction comps with
  | nil => intro acc hacc _ g hg; exact hacc g hg
  | cons c cr ih =>
    intro acc hacc hc g hg
    rw [List.foldl_cons] at hg
    refine ih (normCompsStep k acc c) ?_ (fun d hd hne => hc d (List.mem_cons_of_mem c hd) hne) g hg
    intro d hd
    unfold normCompsStep at hd
    split_ifs at hd with h1 h2 h3
    · exact hacc d hd
    · rcases List.mem_append.mp hd with hd | hd
      · exact hacc d hd
      · rw [List.mem_singleton.mp hd]
        exact hc c (List.mem_cons_self c cr) h1
    · exact hacc d ((List.dropLast_sublist _).subset hd)
    · exact hacc d hd

theorem normCompsStep_dd {k : Nat} {acc : List (List Char)} (c : List Char)
    (h : DDshape k acc) : DDshape k (normCompsStep k acc c) := by
  rcases h with ⟨n, rest, hsplit, hrest, hkn⟩
  unfold normCompsStep
  split_ifs with h1 h2 h3
  · exact ⟨n, rest, hsplit, hrest, hkn⟩
  · by_cases hc : c = ddot
    · rcases h2 with h2 | h2 | h2
      · exact absurd hc h2
      · refine ⟨1, [], ?_, by simp, fun hk0 => absurd h2.1 (by omega)⟩
        rw [h2.2, hc]
        simp
      · have hrnil : rest = [] := by
          by_contra hrne
          have hg : acc.getLast? = rest.getLast? := by
            rw [hsplit]
            exact List.getLast?_append_of_ne_nil _ hrne
          rw [h2] at hg
          exact hrest (List.mem_of_getLast?_eq_some hg.symm)
        refine ⟨n + 1, [], ?_, by simp, ?_⟩
        · rw [hsplit, hrnil, List.append_nil, hc, List.replicate_succ' .., List.append_nil]
        · intro hk0
          have hn0 : n = 0 := hkn hk0
          rw [hsplit, hrnil, hn0] at h2
          simp at h2
    · refine ⟨n, rest ++ [c], ?_, ?_, hkn⟩
      · rw [hsplit, List.append_assoc]
      · intro hm
        rcases List.mem_append.mp hm with hm | hm
        · exact hrest hm
        · exact hc (List.mem_singleton.mp hm).symm
  · push_neg at h2
    rcases h2 with ⟨h2c, h2e, h2l⟩
    cases hre : rest with
    | nil =>
      rw [hre, List.append_nil] at hsplit
      cases hn : n with
      | zero =>
        rw [hsplit, hn] at h3
        simp at h3
      | succ n2 =>
        rw [hsplit, hn, List.replicate_succ' ..] at h2l
        rw [List.getLast?_append_of_ne_nil _ (by simp)] at h2l
        simp at h2l
    | cons r0 rs =>
      refine ⟨n, rest.dropLast, ?_, ?_, hkn⟩
      · rw [hsplit, List.dropLast_append_of_ne_nil _ (by rw [hre]; simp)]
      · intro hm
        exact hrest ((List.dropLast_sublist _).subset hm)
  · exact ⟨n, rest, hsplit, hrest, hkn⟩

theorem normComps_dd (k : Nat) (comps : List (List Char)) : DDshape k (normComps k comps) := by
  suffices h : ∀ acc, DDshape k acc → DDshape k (comps.foldl (normCompsStep k) acc) from
    h [] ⟨0, [], rfl, by simp, fun _ => rfl⟩
  induction comps with
  | nil => intro acc h; exact h
  | cons c cr ih =>
    intro acc h
    rw [List.foldl_cons]
    exact ih _ (normCompsStep_dd c h)

theorem normComps_good (k : Nat) (m : List Char) :
    ∀ g ∈ normComps k (splitSlash m), GoodComp g := by
  unfold normComps
  refine foldl_normCompsStep_mem k GoodComp (splitSlash m) [] (by simp) ?_
  intro c hc hne
  push_neg at hne
  exact ⟨hne.1, hne.2, mem_splitSlash_no_slash m c hc⟩

theorem foldl_normCompsStep_skip_empty (k : Nat) (j : Nat) (cs : List (List Char)) :
    ∀ acc, (List.replicate j ([] : List Char) ++ cs).foldl (normCompsStep k) acc =
      cs.foldl (normCompsStep k) acc := by
  induction j with
  | zero => intro acc; simp
  | succ n ih =>
    intro acc
    rw [List.replicate_succ, List.cons_append, List.foldl_cons,
      show normCompsStep k acc [] = acc by
        unfold normCompsStep
        rw [if_pos (Or.inl rfl)],
      ih acc]

theorem foldl_normCompsStep_all_plain (k : Nat) (rest : List (List Char))
    (h : ∀ g ∈ rest, g ≠ [] ∧ g ≠ dotc ∧ g ≠ ddot) :
    ∀ acc, rest.foldl (normCompsStep k) acc = acc ++ rest := by
  induction rest with
  | nil => intro acc; simp
  | cons c cr ih =>
    intro acc
    rcases h c (List.mem_cons_self c cr) with ⟨hc1, hc2, hc3⟩
    rw [List.foldl_cons,
      show normCompsStep k acc c = acc ++ [c] by
        unfold normCompsStep
        rw [if_neg (by simp [hc1, hc2]), if_pos (Or.inl hc3)],
      ih (fun g hg => h g (List.mem_cons_of_mem c hg)), List.append_assoc]
    rfl

theorem foldl_normCompsStep_ddrun (n : Nat) :
    ∀ i, (List.replicate n ddot).foldl (normCompsStep 0) (List.replicate i ddot) =
      List.replicate (i + n) ddot := by
  induction n with
  | zero => intro i; simp
  | succ n2 ih =>
    intro i
    rw [List.replicate_succ, List.foldl_cons,
      show normCompsStep 0 (List.replicate i ddot) ddot = List.replicate (i + 1) ddot by
        unfold normCompsStep
        rw [if_neg (by simp [ddot, dotc]), if_pos ?_, List.replicate_succ' ..]
        cases hi : i with
        | zero => exact Or.inr (Or.inl ⟨rfl, by simp⟩)
        | succ i2 =>
          refine Or.inr (Or.inr ?_)
          rw [List.replicate_succ' ..]
          exact List.getLast?_concat ..,
      ih (i + 1)]
    congr 1
    omega

theorem foldl_normCompsStep_ddrun0 (n : Nat) :
    (List.replicate n ddot).foldl (normCompsStep 0) [] = List.replicate n ddot := by
  have h := foldl_normCompsStep_ddrun n 0
  simpa using h

/-! ## normpath idempotence -/

theorem normpathCore_def (l : List Char) :
    normpathCore l = List.replicate (initialSlashes l) '/' ++
      joinSlash (normComps (initialSlashes l) (splitSlash l)) := rfl

theorem renorm {k : Nat} (hk : k ≤ 2) {cs : List (List Char)} (hne : cs ≠ [])
    (hgood : ∀ g ∈ cs, GoodComp g) (hdd : DDshape k cs) :
    normpathL (List.replicate k '/' ++ joinSlash cs) =
      List.replicate k '/' ++ joinSlash cs := by
  rcases List.exists_cons_of_ne_nil hne with ⟨c0, cs2, hcs⟩
  rcases hgood c0 (hcs ▸ List.mem_cons_self c0 cs2) with ⟨hc0ne, _, hc0s⟩
  rcases List.exists_cons_of_ne_nil hc0ne with ⟨ch, c0t, hc0⟩
  have hch : ch ≠ '/' := by
    intro he
    exact hc0s (hc0 ▸ he ▸ List.mem_cons_self ch c0t)
  rcases joinSlash_cons c0 cs2 with ⟨x, hjoin⟩
  have hshape : List.replicate k '/' ++ joinSlash cs =
      List.replicate k '/' ++ ch :: (c0t ++ x) := by
    rw [hcs, hjoin, hc0]
    rfl
  have hLne : List.replicate k '/' ++ joinSlash cs ≠ [] := by
    rw [hshape]
    cases k <;> simp
  have hinit : initialSlashes (List.replicate k '/' ++ joinSlash cs) = k := by
    rw [hshape]
    exact initialSlashes_shape hk hch _
  have hsplit : splitSlash (List.replicate k '/' ++ joinSlash cs) =
      List.replicate k ([] : List Char) ++ cs := by
    rw [splitSlash_replicate, splitSlash_joinSlash hne]
    intro g hg
    exact (hgood g hg).2.2
  have hnc : normComps k (List.replicate k ([] : List Char) ++ cs) = cs := by
    unfold normComps
    rw [foldl_normCompsStep_skip_empty]
    rcases hdd with ⟨n, rest, hcseq, hrest, hkn⟩
    have hrplain : ∀ g ∈ rest, g ≠ [] ∧ g ≠ dotc ∧ g ≠ ddot := by
      intro g hg
      have hgm : g ∈ cs := by
        rw [hcseq]
        exact List.mem_append.mpr (Or.inr hg)
      rcases hgood g hgm with ⟨h1, h2, _⟩
      exact ⟨h1, h2, fun he => hrest (he ▸ hg)⟩
    by_cases hk0 : k = 0
    · subst hk0
      rw [hcseq, List.foldl_append, foldl_normCompsStep_ddrun0,
        foldl_normCompsStep_all_plain 0 rest hrplain]
    · rw [hcseq, hkn hk0, List.replicate_zero, List.nil_append,
        foldl_normCompsStep_all_plain k rest hrplain, List.nil_append]
  unfold normpathL
  rw [if_neg hLne, normpathCore_def, hinit, hsplit, hnc, if_neg hLne]

theorem normpathL_idem (l : List Char) : normpathL (normpathL l) = normpathL l := by
  by_cases hl : l = []
  · rw [hl]
    decide
  · have hdef : normpathL l = if normpathCore l = [] then dotc else normpathCore l := by
      unfold normpathL
      rw [if_neg hl]
    by_cases hc : normpathCore l = []
    · rw [hdef, if_pos hc]
      decide
    · rw [hdef, if_neg hc]
      have hgood := normComps_good (initialSlashes l) l
      have hdd := normComps_dd (initialSlashes l) (splitSlash l)
      have hk : initialSlashes l ≤ 2 := by
        rcases initialSlashes_cases l with h | h | h <;> omega
      by_cases hcs : normComps (initialSlashes l) (splitSlash l) = []
      · have hcore : normpathCore l = List.replicate (initialSlashes l) '/' := by
          rw [normpathCore_def, hcs]
          simp [joinSlash]
        rcases initialSlashes_cases l with h | h | h
        · rw [hcore, h] at hc
          simp at hc
        · rw [hcore, h]
          decide
        · rw [hcore, h]
          decide
      · rw [normpathCore_def]
        exact renorm hk hcs hgood hdd

theorem normpathL_head_slash (t : List Char) :
    (normpathL ('/' :: t)).head? = some '/' := by
  obtain ⟨m, hm⟩ : ∃ m, initialSlashes ('/' :: t) = m + 1 := by
    cases hk : initialSlashes ('/' :: t) with
    | zero =>
      have hp := initialSlashes_pos (t := t)
      rw [hk] at hp
      omega
    | succ n => exact ⟨n, rfl⟩
  obtain ⟨r, hr⟩ : ∃ r, normpathCore ('/' :: t) = '/' :: r := by
    rw [normpathCore_def, hm, List.replicate_succ, List.cons_append]
    exact ⟨_, rfl⟩
  unfold normpathL
  rw [if_neg (by simp), if_neg (by rw [hr]; simp), hr]
  rfl

theorem joinPathL_of_abs {b : List Char} (h : b.head? = some '/') (a : List Char) :
    joinPathL a b = b := by
  unfold joinPathL
  rw [if_pos h]

theorem joinPathL_head_slash (t b : List Char) :
    ∃ r, joinPathL ('/' :: t) b = '/' :: r := by
  unfold joinPathL
  split_ifs with h1 h2
  · cases b with
    | nil => simp at h1
    | cons c bs =>
      have hc : c = '/' := by simpa using h1
      exact ⟨bs, by rw [hc]⟩
  · exact ⟨t ++ b, rfl⟩
  · exact ⟨t ++ '/' :: b, rfl⟩

theorem abspathL_head_slash {cwd : List Char} (h : ∃ t, cwd = '/' :: t) (p : List Char) :
    ∃ r, abspathL cwd p = '/' :: r := by
  rcases h with ⟨t, rfl⟩
  rcases joinPathL_head_slash t p with ⟨r, hr⟩
  unfold abspathL
  rw [hr]
  have h2 := normpathL_head_slash r
  cases hnp : normpathL ('/' :: r) with
  | nil =>
    rw [hnp] at h2
    simp at h2
  | cons c cs =>
    rw [hnp] at h2
    have hc : c = '/' := by simpa using h2
    exact ⟨cs, by rw [hc]⟩

theorem abspathL_idem {cwd : List Char} (h : ∃ t, cwd = '/' :: t) (p : List Char) :
    abspathL cwd (abspathL cwd p) = abspathL cwd p := by
  rcases abspathL_head_slash h p with ⟨r, hr⟩
  have hr2 : normpathL (joinPathL cwd p) = '/' :: r := hr
  rw [hr]
  show normpathL (joinPathL cwd ('/' :: r)) = '/' :: r
  rw [joinPathL_of_abs (show (('/' :: r : List Char)).head? = some '/' from rfl) cwd, ← hr2]
  exact normpathL_idem _

theorem startswith_slash_shape {cwd : String} (h : startswithB cwd "/" = true) :
    ∃ t, cwd.data = '/' :: t := by
  unfold startswithB at h
  rw [show ("/" : String).data = ['/'] from rfl] at h
  cases hd : cwd.data with
  | nil =>
    rw [hd] at h
    simp [List.isPrefixOf] at h
  | cons c cs =>
    rw [hd] at h
    simp [List.isPrefixOf] at h
    exact ⟨cs, by rw [← h]⟩

theorem abspath_idem {cwd : String} (h : startswithB cwd "/" = true) (p : String) :
    abspath cwd (abspath cwd p) = abspath cwd p := by
  have hsh := startswith_slash_shape h
  show (⟨abspathL cwd.data (abspathL cwd.data p.data)⟩ : String) = ⟨abspathL cwd.data p.data⟩
  exact congrArg String.mk (abspathL_idem hsh p.data)

theorem prune_eq (cwd : String) (paths : List String) (h : paths ≠ []) :
    prune_redundant_paths cwd paths =
      pruneScan [] (sortedDedup (paths.map (abspath cwd))) := by
  unfold prune_redundant_paths
  rw [if_neg h]

/-! ## Claim C4 -/

/-- C4 (amended): for every input list containing a path `P` and a proper
descendant `D` of `P` (after canonicalization), `prune_redundant_paths` never
retains the descendant; the canonical form of `P` is retained provided no
input path canonicalizes to a proper ancestor of `P`; and the scenario
`["/a", "/a/b"]` prunes to `["/a"]`. -/
theorem C4_prune_descendant (cwd : String) (paths : List String) (P D : String)
    (hP : P ∈ paths) (hD : D ∈ paths)
    (hdesc : isParentPath (abspath cwd P) (abspath cwd D) = true) :
    abspath cwd D ∉ prune_redundant_paths cwd paths ∧
    ((∀ Q ∈ paths, isParentPath (abspath cwd Q) (abspath cwd P) = false) →
      abspath cwd P ∈ prune_redundant_paths cwd paths) ∧
    prune_redundant_paths "/" ["/a", "/a/b"] = ["/a"] := by
  have hne : paths ≠ [] := fun he => absurd (he ▸ hP) (List.not_mem_nil P)
  have hPmem : abspath cwd P ∈ sortedDedup (paths.map (abspath cwd)) :=
    mem_sortedDedup.mpr (List.mem_map_of_mem _ hP)
  have hpw : (sortedDedup (paths.map (abspath cwd))).Pairwise sLt :=
    pairwise_sortedDedup _
  refine ⟨?_, ?_, by decide⟩
  · intro hmem
    rw [prune_eq cwd paths hne] at hmem
    have h2 := pruneScan_drop _ [] hpw _ hmem (abspath cwd P) hPmem
    rw [hdesc] at h2
    simp at h2
  · intro hQ
    rw [prune_eq cwd paths hne]
    refine pruneScan_keep _ [] (abspath cwd P) hPmem
      (fun q hq => absurd hq (List.not_mem_nil q)) ?_
    intro q hq
    have hq2 : q ∈ paths.map (abspath cwd) := mem_sortedDedup.mp hq
    rcases List.mem_map.mp hq2 with ⟨y, hy, rfl⟩
    exact hQ y hy

/-- C4, counterexample to the claim as stated: with sources
`["/x", "/x/y", "/x/y/z"]`, `P := "/x/y"` and its proper descendant
`D := "/x/y/z"` are both in the input, yet the pruned result `["/x"]` does
not contain `P`. -/
theorem C4_counterexample :
    ("/x/y" : String) ∈ (["/x", "/x/y", "/x/y/z"] : List String) ∧
    ("/x/y/z" : String) ∈ (["/x", "/x/y", "/x/y/z"] : List String) ∧
    isParentPath (abspath "/" "/x/y") (abspath "/" "/x/y/z") = true ∧
    prune_redundant_paths "/" ["/x", "/x/y", "/x/y/z"] = ["/x"] ∧
    abspath "/" "/x/y" ∉ prune_redundant_paths "/" ["/x", "/x/y", "/x/y/z"] := by
  decide

/-- C4, witness: the amended theorem applied to the concrete scenario. -/
theorem C4_witness :
    abspath "/" "/a/b" ∉ prune_redundant_paths "/" ["/a", "/a/b"] ∧
    abspath "/" "/a" ∈ prune_redundant_paths "/" ["/a", "/a/b"] := by
  have h := C4_prune_descendant "/" ["/a", "/a/b"] "/a" "/a/b"
    (by decide) (by decide) (by decide)
  exact ⟨h.1, h.2.1 (by decide)⟩

/-! ## Claim C10 -/

/-- C10: `prune_redundant_paths` is idempotent (the working directory,
`os.getcwd()`, is an absolute path). -/
theorem C10_prune_idempotent (cwd : String) (hcwd : startswithB cwd "/" = true)
    (paths : List String) :
    prune_redundant_paths cwd (prune_redundant_paths cwd paths) =
      prune_redundant_paths cwd paths := by
  by_cases hp : paths = []
  · rw [hp]
    rfl
  · have hout : prune_redundant_paths cwd paths =
        pruneScan [] (sortedDedup (paths.map (abspath cwd))) := prune_eq cwd paths hp
    have hpws : (sortedDedup (paths.map (abspath cwd))).Pairwise sLt :=
      pairwise_sortedDedup _
    have houtpw : (prune_redundant_paths cwd paths).Pairwise sLt := by
      rw [hout]
      exact hpws.sublist (pruneScan_sublist _ [])
    have houtne : prune_redundant_paths cwd paths ≠ [] := by
      rcases List.exists_cons_of_ne_nil hp with ⟨p0, pr, hpr⟩
      have hmem : abspath cwd p0 ∈ sortedDedup (paths.map (abspath cwd)) :=
        mem_sortedDedup.mpr (List.mem_map_of_mem _ (hpr ▸ List.mem_cons_self p0 pr))
      rcases List.exists_cons_of_ne_nil
        (show sortedDedup (paths.map (abspath cwd)) ≠ [] from fun hnil =>
          absurd (hnil ▸ hmem) (List.not_mem_nil _)) with ⟨a, t, hat⟩
      rw [hout, hat]
      exact pruneScan_cons_ne_nil a t
    have hmap : (prune_redundant_paths cwd paths).map (abspath cwd) =
        prune_redundant_paths cwd paths := by
      refine (List.map_congr_left ?_).trans (List.map_id _)
      intro x hx
      have hx2 : x ∈ paths.map (abspath cwd) :=
        mem_sortedDedup.mp ((pruneScan_sublist _ []).subset (hout ▸ hx))
      rcases List.mem_map.mp hx2 with ⟨y, _, rfl⟩
      exact abspath_idem hcwd y
    have hnp : (prune_redundant_paths cwd paths).Pairwise
        (fun b a => isParentPath b a = false) := by
      rw [hout]
      exact (pruneScan_inv _ []).2
    rw [prune_eq cwd _ houtne, hmap, sortedDedup_eq_self houtpw]
    exact pruneScan_id _ [] hnp (fun x _ => hasParentIn_nil x)

/-- C10, witness: idempotence at a concrete mixed path list. -/
theorem C10_witness :
    prune_redundant_paths "/" (prune_redundant_paths "/" ["a", "/b//c", "/b/c/d"]) =
      prune_redundant_paths "/" ["a", "/b//c", "/b/c/d"] :=
  C10_prune_idempotent "/" (by decide) ["a", "/b//c", "/b/c/d"]

/-! ## Claim C5 -/

/-- C5: the diagnostic line `tar: /a/secret: Cannot open` read by the tar
stderr monitor appends `/a/secret` to the failed-items list without setting
the abort signal under policy `ignore`, sets the abort signal under policy
`abort`, and no line whatsoever sets the abort signal under policy
`ignore`. -/
theorem C5_stderr_classification :
    (monitor_process_stderr_line "tar" false true "ignore" true "/base"
        "tar: /a/secret: Cannot open").appendedFailed = some "/a/secret" ∧
    (monitor_process_stderr_line "tar" false true "ignore" true "/base"
        "tar: /a/secret: Cannot open").abortSet = false ∧
    (monitor_process_stderr_line "tar" false true "abort" true "/base"
        "tar: /a/secret: Cannot open").abortSet = true ∧
    ∀ (streamName : String) (isVerboseTar hasErrorEvent hasFailedList : Bool)
      (basePath lineStr : String),
      (monitor_process_stderr_line streamName isVerboseTar hasErrorEvent "ignore"
        hasFailedList basePath lineStr).abortSet = false := by
  refine ⟨by decide, by decide, by decide, ?_⟩
  intro streamName isVerboseTar hasErrorEvent hasFailedList basePath lineStr
  unfold monitor_process_stderr_line
  split_ifs with h1 h2 h3 <;> simp

/-! ## Claim C7 -/

/-- C7: the pv line `45.2% [ 3.1MiB/s] ETA 00:10` parses to the snapshot
`{percent := "45.2", speed := "3.1MiB/s", eta := "00:10"}`, and every field
with no match in the current line takes its placeholder value rather than a
stale one. -/
theorem C7_progress_parsing :
    monitor_pv_progress_line "45.2% [ 3.1MiB/s] ETA 00:10" =
      ⟨"45.2", "3.1MiB/s", "00:10"⟩ ∧
    ∀ line : String,
      (scanFirst percentAt line.data = none →
        (monitor_pv_progress_line line).percent = "0.0") ∧
      (scanFirst speedAt line.data = none →
        (monitor_pv_progress_line line).speed = "--") ∧
      (scanFirst etaAt line.data = none →
        (monitor_pv_progress_line line).eta = "--:--") := by
  refine ⟨by decide, ?_⟩
  intro line
  refine ⟨fun h => ?_, fun h => ?_, fun h => ?_⟩ <;>
    unfold monitor_pv_progress_line <;> simp [h]

/-- C7, witness: a line with no progress fields yields all three
placeholders. -/
theorem C7_witness :
    (monitor_pv_progress_line "hello").percent = "0.0" ∧
    (monitor_pv_progress_line "hello").speed = "--" ∧
    (monitor_pv_progress_line "hello").eta = "--:--" :=
  ⟨(C7_progress_parsing.2 "hello").1 (by decide),
    (C7_progress_parsing.2 "hello").2.1 (by decide),
    (C7_progress_parsing.2 "hello").2.2 (by decide)⟩

/-! ## Dict lemmas -/

theorem all_map_eq_true {α β : Type} (f : α → β) (l : List α) (p : β → Bool) :
    (l.map f).all p = true ↔ ∀ x ∈ l, p (f x) = true := by
  rw [List.all_eq_true]
  constructor
  · intro h x hx
    exact h (f x) (List.mem_map_of_mem f hx)
  · intro h y hy
    rcases List.mem_map.mp hy with ⟨x, hx, rfl⟩
    exact h x hx

theorem foldl_dictGet_const {α : Type} (k : String) (v : α) (rest : List (String × α))
    (h : ∀ p ∈ rest, p.1 ≠ k) :
    rest.foldl (fun acc p => if p.1 = k then some p.2 else acc) (some v) = some v := by
  induction rest with
  | nil => rfl
  | cons q qs ih =>
    rw [List.foldl_cons, if_neg (h q (List.mem_cons_self q qs))]
    exact ih fun p hp => h p (List.mem_cons_of_mem q hp)

theorem dictGetO_head {α : Type} (k : String) (v : α) (rest : List (String × α))
    (h : ∀ p ∈ rest, p.1 ≠ k) :
    dictGetO ((k, v) :: rest) k = some v := by
  unfold dictGetO
  rw [List.foldl_cons, if_pos rfl]
  exact foldl_dictGet_const k v rest h

theorem foldl_dictInsert_nodup {α : Type} (l : List (String × α)) :
    ∀ acc : List (String × α), ((acc ++ l).map Prod.fst).Nodup →
      l.foldl (fun d p => dictInsert d p.1 p.2) acc = acc ++ l := by
  induction l with
  | nil => intro acc _; simp
  | cons q qs ih =>
    intro acc hacc
    obtain ⟨k, v⟩ := q
    have hknotin : ∀ p ∈ acc, p.1 ≠ k := by
      intro p hp he
      rw [List.map_append] at hacc
      rcases List.nodup_append.mp hacc with ⟨_, _, hdisj⟩
      refine hdisj (List.mem_map_of_mem Prod.fst hp) ?_
      rw [he, List.map_cons]
      exact List.mem_cons_self k _
    have hins : dictInsert acc k v = acc ++ [(k, v)] := by
      unfold dictInsert
      rw [if_neg ?_]
      intro hany
      rcases List.any_eq_true.mp hany with ⟨p, hp, hpk⟩
      exact hknotin p hp (by simpa using hpk)
    rw [List.foldl_cons]
    show qs.foldl (fun d p => dictInsert d p.1 p.2) (dictInsert acc k v) = acc ++ (k, v) :: qs
    rw [hins, ih (acc ++ [(k, v)])
      (by rw [List.append_assoc, List.singleton_append]; exact hacc)]
    simp

theorem buildDict_nodup {α : Type} (l : List (String × α))
    (h : (l.map Prod.fst).Nodup) : buildDict l = l := by
  unfold buildDict
  simpa using foldl_dictInsert_nodup l [] (by simpa using h)

/-! ## build_backup_pipeline characterization -/

theorem validationError_cases {cwd : String} {readable : String → Bool}
    {cfg : BuildConfig} {e : BuildError}
    (h : validationError cwd readable cfg = some e) :
    e = .noSources ∨ e = .emptyAfterPruning ∨ ∃ q, e = .permissionDenied q := by
  unfold validationError at h
  split_ifs at h with h1 h2
  · exact Or.inl (Option.some.injEq .. |>.mp h).symm
  · exact Or.inr (Or.inl (Option.some.injEq .. |>.mp h).symm)
  · cases hf : (prune_redundant_paths cwd cfg.sources).find? (fun p => ! readable p) with
    | some p =>
      rw [hf] at h
      injection h with h3
      exact Or.inr (Or.inr ⟨p, h3.symm⟩)
    | none =>
      rw [hf] at h
      exact Option.noConfusion h

theorem encStages_error_cases {cfg : BuildConfig} {e : BuildError}
    (h : encStages cfg = .error e) :
    e = .agePassphraseMissing ∨ e = .gpgRecipientMissing := by
  unfold encStages at h
  split_ifs at h <;>
    first
    | (injection h with h2; exact Or.inl h2.symm)
    | (injection h with h2; exact Or.inr h2.symm)
    | simp at h

theorem build_ok_processes {cwd : String} {readable : String → Bool}
    {cache : List (String × Nat)} {d : Option Nat} {cfg : BuildConfig} {out : BuildOutput}
    (h : build_backup_pipeline cwd readable cache d cfg = .ok out) :
    ∃ tail, encStages cfg = .ok tail ∧ out.processes = baseProcs ++ tail := by
  unfold build_backup_pipeline at h
  cases hv : validationError cwd readable cfg with
  | some e =>
    rw [hv] at h
    simp at h
  | none =>
    rw [hv] at h
    cases he : encStages cfg with
    | error e =>
      rw [he] at h
      simp at h
    | ok tail =>
      rw [he] at h
      injection h with h2
      exact ⟨tail, rfl, by rw [← h2]⟩

/-! ## Claim C6 -/

/-- C6 (amended): a `build_backup_pipeline` error from validation (empty
source selection after pruning, or an unreadable retained source) is raised
before any stage process is spawned; the missing-passphrase /
missing-recipient configuration errors are raised only after the archiver,
meter and compressor stages have been spawned. -/
theorem C6_prespawn_errors (cwd : String) (readable : String → Bool)
    (cache : List (String × Nat)) (d : Option Nat) (cfg : BuildConfig)
    (e : BuildError) (spawned : List SpawnedProc)
    (h : build_backup_pipeline cwd readable cache d cfg = .error (e, spawned)) :
    ((e = .noSources ∨ e = .emptyAfterPruning ∨ ∃ q, e = .permissionDenied q) →
      spawned = []) ∧
    ((e = .agePassphraseMissing ∨ e = .gpgRecipientMissing) → spawned = baseProcs) := by
  unfold build_backup_pipeline at h
  cases hv : validationError cwd readable cfg with
  | some e2 =>
    rw [hv] at h
    injection h with h2
    obtain ⟨he, hs⟩ := Prod.mk.injEq .. |>.mp h2
    refine ⟨fun _ => hs.symm, fun hcontra => ?_⟩
    rcases validationError_cases hv with hv2 | hv2 | ⟨q, hv2⟩ <;>
      rw [← he, hv2] at hcontra <;>
      rcases hcontra with hc | hc <;> simp at hc
  | none =>
    rw [hv] at h
    cases he2 : encStages cfg with
    | error e3 =>
      rw [he2] at h
      injection h with h2
      obtain ⟨heq, hs⟩ := Prod.mk.injEq .. |>.mp h2
      refine ⟨fun hval => ?_, fun _ => hs.symm⟩
      rcases encStages_error_cases he2 with h3 | h3 <;>
        rw [← heq, h3] at hval <;>
        rcases hval with hc | hc | ⟨q, hc⟩ <;> simp at hc
    | ok tail =>
      rw [he2] at h
      simp at h

/-- C6, counterexample to the claim as stated: a configuration error (age
encryption with no passphrase) is raised with the three base stages already
spawned. -/
theorem C6_counterexample :
    build_backup_pipeline "/" (fun _ => true) [] none cfgAge =
      .error (.agePassphraseMissing, baseProcs) ∧
    baseProcs ≠ [] := by decide

/-- C6, witness: the amended theorem applied at the concrete
missing-passphrase configuration. -/
theorem C6_witness :
    ([⟨"tar", .tarS⟩, ⟨"pv", .pvS⟩, ⟨"zstd", .zstdS⟩] : List SpawnedProc) = baseProcs :=
  (C6_prespawn_errors "/" (fun _ => true) [] none cfgAge .agePassphraseMissing
      [⟨"tar", .tarS⟩, ⟨"pv", .pvS⟩, ⟨"zstd", .zstdS⟩] (by decide)).2 (Or.inl rfl)

/-! ## Claim C9 -/

/-- C9: size estimation is advisory.  Whether the disk-usage query succeeds
never changes whether pipeline construction succeeds; when it fails the
total degrades to 0 (unknown); and when every pruned source is in the root
size cache, the total is the sum of the cached sizes and no disk-usage
subprocess is invoked. -/
theorem C9_size_estimation (cwd : String) (readable : String → Bool)
    (cache : List (String × Nat)) (cfg : BuildConfig) :
    (∀ d1 d2 : Option Nat,
      (build_backup_pipeline cwd readable cache d1 cfg).isOk =
        (build_backup_pipeline cwd readable cache d2 cfg).isOk) ∧
    (∀ out, build_backup_pipeline cwd readable cache none cfg = .ok out →
      out.duInvoked = true → out.totalSize = 0) ∧
    (∀ (d : Option Nat) out, build_backup_pipeline cwd readable cache d cfg = .ok out →
      (prune_redundant_paths cwd cfg.sources).all
          (fun p => (dictGetO (buildDict cache) p).isSome) = true →
      out.totalSize = ((prune_redundant_paths cwd cfg.sources).map
          (fun p => (dictGetO (buildDict cache) p).getD 0)).sum ∧
        out.duInvoked = false) := by
  refine ⟨?_, ?_, ?_⟩
  · intro d1 d2
    unfold build_backup_pipeline
    cases validationError cwd readable cfg with
    | some e => rfl
    | none =>
      cases encStages cfg with
      | error e => rfl
      | ok tail => rfl
  · intro out h
    unfold build_backup_pipeline at h
    cases hv : validationError cwd readable cfg with
    | some e =>
      rw [hv] at h
      simp at h
    | none =>
      rw [hv] at h
      cases he : encStages cfg with
      | error e =>
        rw [he] at h
        simp at h
      | ok tail =>
        rw [he] at h
        injection h with h2
        rw [← h2]
        show (sizeEstimate cache none (prune_redundant_paths cwd cfg.sources)).2 = true →
          (sizeEstimate cache none (prune_redundant_paths cwd cfg.sources)).1 = 0
        unfold sizeEstimate
        split_ifs with hall
        · intro hdu
          simp at hdu
        · intro _
          rfl
  · intro d out h hall
    unfold build_backup_pipeline at h
    cases hv : validationError cwd readable cfg with
    | some e =>
      rw [hv] at h
      simp at h
    | none =>
      rw [hv] at h
      cases he : encStages cfg with
      | error e =>
        rw [he] at h
        simp at h
      | ok tail =>
        rw [he] at h
        injection h with h2
        rw [← h2]
        show (sizeEstimate cache d (prune_redundant_paths cwd cfg.sources)).1 = _ ∧
          (sizeEstimate cache d (prune_redundant_paths cwd cfg.sources)).2 = false
        unfold sizeEstimate
        rw [if_pos hall]
        exact ⟨rfl, rfl⟩

/-- C9, witness: with `"/a"` cached at 7 bytes, the total is 7 and no du
subprocess runs, whatever the du oracle would have returned. -/
theorem C9_witness :
    (build_backup_pipeline "/" (fun _ => true) [("/a", 7)] (some 99) cfgPlain).isOk =
      (build_backup_pipeline "/" (fun _ => true) [("/a", 7)] none cfgPlain).isOk ∧
    (⟨baseProcs, 7, false⟩ : BuildOutput).totalSize =
        ((prune_redundant_paths "/" cfgPlain.sources).map
          (fun p => (dictGetO (buildDict [("/a", 7)]) p).getD 0)).sum ∧
      (⟨baseProcs, 7, false⟩ : BuildOutput).duInvoked = false :=
  ⟨(C9_size_estimation "/" (fun _ => true) [("/a", 7)] cfgPlain).1 (some 99) none,
    (C9_size_estimation "/" (fun _ => true) [("/a", 7)] cfgPlain).2.2 (some 99)
      ⟨baseProcs, 7, false⟩ (by decide) (by decide)⟩

/-! ## Executor lemmas -/

theorem copyLoop_none_not_raised (reads : List Bool) :
    ∀ i, (copyLoop none i reads).2 = false := by
  induction reads with
  | nil => intro i; rfl
  | cons r rest ih =>
    intro i
    unfold copyLoop
    rw [show isSetAt none i = false from rfl]
    simp only [Bool.false_eq_true, if_false]
    by_cases hr : r = true
    · rw [if_pos hr]
      exact ih (i + 1)
    · rw [if_neg hr]
      rfl

theorem cleanupAndReport_reported (env : RunEnv) (succ tw : Bool) (c : Nat)
    (procs : List ProcFinal) :
    (cleanupAndReport env succ tw c procs).reported =
      if succ then Outcome.success else Outcome.error := rfl

theorem cleanupAndReport_tarWarned (env : RunEnv) (succ tw : Bool) (c : Nat)
    (procs : List ProcFinal) :
    (cleanupAndReport env succ tw c procs).tarWarned = tw := rfl

theorem cleanupAndReport_procs (env : RunEnv) (succ tw : Bool) (c : Nat)
    (procs : List ProcFinal) :
    (cleanupAndReport env succ tw c procs).procs = procs := rfl

theorem cleanupAndReport_cases (env : RunEnv) (succ tw : Bool) (c : Nat)
    (procs : List ProcFinal) (p : String)
    (hp : env.destName = some p) (hbs : p ≠ "browser_stream") :
    ((cleanupAndReport env succ tw c procs).reported = .error →
      (cleanupAndReport env succ tw c procs).destExistsAfter = false) ∧
    ((cleanupAndReport env succ tw c procs).reported = .success →
      (cleanupAndReport env succ tw c procs).destRemoved = false) := by
  unfold cleanupAndReport
  rw [hp]
  simp only [Option.getD_some]
  have hb : (p = "browser_stream" : Bool) = false := by
    simp [hbs]
  cases succ with
  | false =>
    refine ⟨fun _ => ?_, fun hcontra => ?_⟩
    · rw [hb]
      cases env.destExists <;> rfl
    · simp at hcontra
  | true =>
    refine ⟨fun hcontra => ?_, fun _ => ?_⟩
    · simp at hcontra
    · rfl

/-! ## Claim C2 -/

/-- C2: when the destination is a concrete output file, a failing run leaves
no destination file behind, and a successful run never removes it. -/
theorem C2_destination_cleanup (env : RunEnv) (p : String)
    (hp : env.destName = some p) (hbs : p ≠ "browser_stream") :
    ((run_backup_task env).reported = .error →
      (run_backup_task env).destExistsAfter = false) ∧
    ((run_backup_task env).reported = .success →
      (run_backup_task env).destRemoved = false) := by
  unfold run_backup_task
  cases build_backup_pipeline env.cwd env.readable env.rootNodeCache env.duResult env.cfg with
  | error es =>
    obtain ⟨e, spawned⟩ := es
    exact cleanupAndReport_cases env false false 0 _ p hp hbs
  | ok out =>
    dsimp only
    by_cases hra : (copyLoop env.abortAt 0 env.reads).2 = true
    · rw [if_pos hra]
      exact cleanupAndReport_cases env false false _ _ p hp hbs
    · rw [if_neg hra]
      exact cleanupAndReport_cases env _ _ _ _ p hp hbs

/-- C2, witness: a run whose compressor exits 1 removes its destination
file; the same run with all stages exiting 0 retains it. -/
theorem C2_witness :
    (run_backup_task envZstdFail).destExistsAfter = false ∧
    (run_backup_task envTarWarn).destRemoved = false :=
  ⟨(C2_destination_cleanup envZstdFail "/root/backups/x.tar.zst" rfl
      (by decide)).1 (by decide),
    (C2_destination_cleanup envTarWarn "/root/backups/x.tar.zst" rfl
      (by decide)).2 (by decide)⟩

/-! ## Claim C1 -/

theorem backupExitCodes_eq {env : RunEnv} {out : BuildOutput}
    (hn : (out.processes.map SpawnedProc.name).Nodup) :
    backupExitCodes env out = out.processes.map fun s => (s.name, env.exitCode s.proc) := by
  unfold backupExitCodes
  apply buildDict_nodup
  rw [List.map_map]
  exact hn

theorem backupExitCodes_tar {env : RunEnv} {out : BuildOutput} {tail : List SpawnedProc}
    (htail : out.processes = baseProcs ++ tail)
    (hn : (out.processes.map SpawnedProc.name).Nodup) :
    (dictGetO (backupExitCodes env out) "tar").getD 0 = env.exitCode .tarS := by
  rw [backupExitCodes_eq hn, htail]
  have hnames : ("tar" : String) ∉
      (List.map SpawnedProc.name (⟨"pv", .pvS⟩ :: ⟨"zstd", .zstdS⟩ :: tail)) := by
    rw [htail] at hn
    simp only [baseProcs, List.cons_append, List.nil_append, List.map_cons] at hn
    exact (List.nodup_cons.mp hn).1
  rw [show (baseProcs ++ tail).map (fun s => (s.name, env.exitCode s.proc)) =
      ("tar", env.exitCode .tarS) ::
        (⟨"pv", .pvS⟩ :: ⟨"zstd", .zstdS⟩ :: tail).map
          (fun s : SpawnedProc => (s.name, env.exitCode s.proc)) from rfl]
  rw [dictGetO_head]
  · rfl
  · intro q hq he
    rcases List.mem_map.mp hq with ⟨s, hs, rfl⟩
    exact hnames (he ▸ List.mem_map_of_mem SpawnedProc.name hs)

theorem backup_exit_ok_iff {env : RunEnv} {out : BuildOutput} {tail : List SpawnedProc}
    (htail : out.processes = baseProcs ++ tail)
    (hn : (out.processes.map SpawnedProc.name).Nodup) :
    backup_exit_ok (backupExitCodes env out) = true ↔
      ((env.exitCode .tarS = 0 ∨ env.exitCode .tarS = 1) ∧
        ∀ s ∈ out.processes, s.name ≠ "tar" → env.exitCode s.proc = 0) := by
  unfold backup_exit_ok
  rw [backupExitCodes_tar htail hn, backupExitCodes_eq hn]
  rw [Bool.and_eq_true, Bool.or_eq_true, all_map_eq_true]
  simp only [decide_eq_true_eq, Bool.or_eq_true]
  constructor
  · rintro ⟨h1, h2⟩
    refine ⟨h1, fun s hs hne => ?_⟩
    rcases h2 s hs with hc | hc
    · exact absurd hc hne
    · exact hc
  · rintro ⟨h1, h2⟩
    refine ⟨h1, fun s hs => ?_⟩
    by_cases hname : s.name = "tar"
    · exact Or.inl hname
    · exact Or.inr (h2 s hs hname)

/-- C1 (amended): for a run whose pipeline was built, with the abort signal
never set, every process exiting, and the spawned stages carrying distinct
names — as they do whenever the encryption method is `age`, `gpg`, or
absent, but not when a client supplies the method `"tar"` —
`run_backup_task` reports success iff tar exited 0 or 1 and every other
stage exited 0; when tar exited 1, success is reported with a warning
logged.  The distinct-name proviso is forced: the counterexample below
shows the claim fails without it. -/
theorem C1_backup_exit_codes (env : RunEnv) (out : BuildOutput)
    (hb : build_backup_pipeline env.cwd env.readable env.rootNodeCache
      env.duResult env.cfg = .ok out)
    (hn : (out.processes.map SpawnedProc.name).Nodup)
    (hab : env.abortAt = none) :
    ((run_backup_task env).reported = .success ↔
      ((env.exitCode .tarS = 0 ∨ env.exitCode .tarS = 1) ∧
        ∀ s ∈ out.processes, s.name ≠ "tar" → env.exitCode s.proc = 0)) ∧
    ((run_backup_task env).reported = .success → env.exitCode .tarS = 1 →
      (run_backup_task env).tarWarned = true) := by
  obtain ⟨tail, _, htail⟩ := build_ok_processes hb
  have hraise : (copyLoop env.abortAt 0 env.reads).2 = false := by
    rw [hab]
    exact copyLoop_none_not_raised env.reads 0
  have hrun : run_backup_task env =
      cleanupAndReport env (backup_exit_ok (backupExitCodes env out))
        (backup_exit_ok (backupExitCodes env out) &&
          ((dictGetO (backupExitCodes env out) "tar").getD 0 = 1 : Bool))
        (copyLoop env.abortAt 0 env.reads).1
        (out.processes.map fun s => ⟨s.name, s.proc, false, true, false⟩) := by
    unfold run_backup_task
    rw [hb]
    dsimp only
    rw [if_neg (show ¬ (copyLoop env.abortAt 0 env.reads).2 = true by rw [hraise]; simp)]
  rw [hrun, cleanupAndReport_reported, cleanupAndReport_tarWarned]
  constructor
  · constructor
    · intro hs
      have hok : backup_exit_ok (backupExitCodes env out) = true := by
        by_contra hno
        rw [if_neg hno] at hs
        exact Outcome.noConfusion hs
      exact (backup_exit_ok_iff htail hn).mp hok
    · intro hc
      rw [if_pos ((backup_exit_ok_iff htail hn).mpr hc)]
  · intro hsucc htar1
    have hok : backup_exit_ok (backupExitCodes env out) = true := by
      by_contra hno
      rw [if_neg hno] at hsucc
      exact Outcome.noConfusion hsucc
    rw [hok, backupExitCodes_tar htail hn, htar1]
    simp

/-- C1, witness: a run whose archiver exits 1 and whose other stages exit 0
reports success and logs the tar warning. -/
theorem C1_witness :
    (run_backup_task envTarWarn).reported = .success ∧
    (run_backup_task envTarWarn).tarWarned = true :=
  ⟨(C1_backup_exit_codes envTarWarn ⟨baseProcs, 7, false⟩ (by decide) (by decide)
      rfl).1.mpr ⟨Or.inr rfl, by decide⟩,
    (C1_backup_exit_codes envTarWarn ⟨baseProcs, 7, false⟩ (by decide) (by decide)
      rfl).2
      ((C1_backup_exit_codes envTarWarn ⟨baseProcs, 7, false⟩ (by decide) (by decide)
        rfl).1.mpr ⟨Or.inr rfl, by decide⟩) rfl⟩

/-- C1, counterexample to the claim as stated: with a client-supplied
`encryptionMethod` of `"tar"`, the method dispatch falls through and the
encryption slot records `("tar", zstd_proc)`, so the exit-code dict
comprehension overwrites the key `"tar"` with the compressor's status.
This run's pipeline was built, the abort signal was never set, every
process exited — yet the archiver exited 2 and success is reported,
refuting "success iff tar exited 0 or 1 and every other process 0". -/
theorem C1_counterexample :
    build_backup_pipeline envTarShadow.cwd envTarShadow.readable
        envTarShadow.rootNodeCache envTarShadow.duResult envTarShadow.cfg =
      .ok ⟨baseProcs ++ [⟨"tar", .zstdS⟩], 7, false⟩ ∧
    envTarShadow.abortAt = none ∧
    envTarShadow.exitCode .tarS = 2 ∧
    (run_backup_task envTarShadow).reported = .success := by decide

/-! ## Claim C3 -/

/-- C3 (code bug): at the failing input (age encryption requested without a
passphrase over a readable source), `build_backup_pipeline` raises after
spawning the archiver, meter and compressor; `run_backup_task` catches the
exception but its local process list is still empty, so the cleanup loop
sends no termination request and waits on nothing: the three spawned
processes are left running. -/
theorem C3_process_leak :
    (run_backup_task envLeak).procs =
      [⟨"tar", .tarS, false, false, true⟩, ⟨"pv", .pvS, false, false, true⟩,
        ⟨"zstd", .zstdS, false, false, true⟩] := by decide

/-! ## Claim C8 -/

/-- C8: a restore run reports success iff every stage (reader, optional
decryptor, decompressor, extractor) exits 0; in particular the extractor
exiting 1 reports failure — no completed-with-warnings leniency. -/
theorem C8_extraction_exit_codes (filename : String) (exitCode : StageProc → Int) :
    (run_extraction_task filename exitCode = .success ↔
      ∀ s ∈ extractionStages filename, exitCode s.proc = 0) ∧
    (exitCode .tarS = 1 → run_extraction_task filename exitCode = .error) := by
  have hnod : ((extractionStages filename).map SpawnedProc.name).Nodup := by
    unfold extractionStages
    split_ifs <;> decide
  have hd : buildDict ((extractionStages filename).map fun s => (s.name, exitCode s.proc)) =
      (extractionStages filename).map fun s => (s.name, exitCode s.proc) := by
    apply buildDict_nodup
    rw [List.map_map]
    exact hnod
  have hiff : run_extraction_task filename exitCode = .success ↔
      ∀ s ∈ extractionStages filename, exitCode s.proc = 0 := by
    unfold run_extraction_task
    dsimp only
    rw [hd]
    constructor
    · intro h
      by_cases hall : (((extractionStages filename).map
          fun s => (s.name, exitCode s.proc)).all fun q => (q.2 = 0 : Bool)) = true
      · intro s hs
        have h2 := (all_map_eq_true _ _ _).mp hall s hs
        simpa using h2
      · rw [if_neg hall] at h
        exact Outcome.noConfusion h
    · intro h
      rw [if_pos ((all_map_eq_true _ _ _).mpr fun s hs => by simpa using h s hs)]
  refine ⟨hiff, fun h1 => ?_⟩
  cases hrun : run_extraction_task filename exitCode with
  | error => rfl
  | success =>
    have htz := hiff.mp hrun ⟨"tar", .tarS⟩ ?_
    · rw [h1] at htz
      simp at htz
    · unfold extractionStages
      split_ifs <;> simp

end BackupSrv
